import Mathlib

/-
  Shallow embedding of the haplotype-constrained alignment engine of
  src/src/gbwt_extender.cpp (namespace vg): the gapless seed-extension
  engine (GaplessExtender) and the graph-generalized wavefront aligner
  (WFAExtender / WFATree), together with proofs about the claims of the
  specification.

  Modelling conventions:
  - C++ machine integers are modelled by Nat (size_t, uint32_t) and Int
    (int32_t).  None of the verified properties depend on wraparound at
    realistic read lengths, except where noted (WFAAlignment.final_offset,
    where uint32 wraparound is modelled exactly).
  - A node-orientation handle (handle_t / gbwt::node_type) is modelled as a
    pair of a node id and an orientation bit.
  - The graph access layer (gbwtgraph::GBWTGraph / CachedGBWTGraph and the
    GBWT index) is external to the repository; it is modelled as a structure
    of oracles supplying node lengths, node sequences and haplotype search
    state extension, exactly the operations the source consumes.
-/

namespace VG

/-- A node visited in a specific orientation: models `handle_t` and the
gbwt node encoding (`gbwt::node_type` packs id and orientation). -/
structure GNode where
  id : Nat
  rev : Bool
deriving DecidableEq, Repr

/-- `gbwt::Node::reverse`: the same node in the opposite orientation. -/
def GNode.reverse (n : GNode) : GNode := { n with rev := !n.rev }

/-- A unidirectional GBWT search state (`gbwt::SearchState`): a node and a
closed range of haplotype index positions. -/
structure SearchState where
  node : GNode
  range : Nat × Nat
deriving DecidableEq, Repr

/-- `gbwt::SearchState::empty()`: the range `[first, second]` is empty. -/
def SearchState.isEmpty (s : SearchState) : Bool := s.range.2 < s.range.1

/-- `gbwt::SearchState::size()`: number of haplotype positions in the
closed range (0 when empty). -/
def SearchState.size (s : SearchState) : Nat := s.range.2 + 1 - s.range.1

/-- A bidirectional GBWT search state (`gbwt::BidirectionalState`). -/
structure BDState where
  forward : SearchState
  backward : SearchState
deriving DecidableEq, Repr

/-- `gbwt::BidirectionalState::empty()` is `forward.empty()`. -/
def BDState.isEmpty (s : BDState) : Bool := s.forward.isEmpty

/-- `gbwt::BidirectionalState::size()` is `forward.size()`. -/
def BDState.size (s : BDState) : Nat := s.forward.size

/-- Scoring parameters consumed from the external `Aligner` object.  The
source reads the fields `match`, `mismatch`, `gap_open`, `gap_extension`
and `full_length_bonus`; `match` is a Lean keyword, so that field is named
`matchScore` here. -/
structure Aligner where
  matchScore : Int
  mismatch : Int
  gapOpen : Int
  gapExtension : Int
  fullLengthBonus : Int
deriving DecidableEq, Repr

/-- The `GaplessExtension` record of gbwt_extender: a gap-free local
alignment candidate.  Field names follow the source (`read_interval` ↦
`readInterval` and so on). -/
structure GaplessExtension where
  path : List GNode
  offset : Nat
  state : BDState
  readInterval : Nat × Nat
  mismatchPositions : List Nat
  score : Int
  leftFull : Bool
  rightFull : Bool
  leftMaximal : Bool
  rightMaximal : Bool
  internalScore : Nat
  oldScore : Nat
deriving DecidableEq, Repr

namespace GaplessExtension

/-- Modelled from the spec: `GaplessExtension::length()` is declared in
gbwt_extender.hpp (not under src/); the spec defines an extension's length
as the length of its half-open `read_interval`. -/
def length (e : GaplessExtension) : Nat := e.readInterval.2 - e.readInterval.1

/-- Modelled from the spec: `GaplessExtension::empty()` (declared in
gbwt_extender.hpp, not under src/) — an extension is empty when it covers
no read positions. -/
def isEmpty (e : GaplessExtension) : Bool := e.length == 0

/-- Modelled from the spec: `GaplessExtension::full()` (declared in
gbwt_extender.hpp, not under src/) — a full-length extension reaches both
ends of the read, i.e. `left_full && right_full`. -/
def full (e : GaplessExtension) : Bool := e.leftFull && e.rightFull

/-- Modelled from the spec: `GaplessExtension::exact()` (declared in
gbwt_extender.hpp, not under src/) — an exact extension has no mismatches. -/
def exact (e : GaplessExtension) : Bool := e.mismatchPositions.isEmpty

/-- Modelled from the spec: `GaplessExtension::mismatches()` (declared in
gbwt_extender.hpp, not under src/) — the running mismatch count
`internal_score`. -/
def mismatches (e : GaplessExtension) : Nat := e.internalScore

end GaplessExtension

/-- `interval_length` from the source: the length of a half-open interval. -/
def interval_length (interval : Nat × Nat) : Nat := interval.2 - interval.1

/-- `set_score` (gbwt_extender.cpp): computes the score of a gapless
extension from `read_interval`, `internal_score`, `left_full` and
`right_full`.  Arithmetic is over ℤ; the int32 casts of the source do not
overflow at realistic read lengths. -/
def set_score (extension : GaplessExtension) (aligner : Aligner) : GaplessExtension :=
  -- Assume that everything matches.
  let score : Int :=
    ((extension.readInterval.2 - extension.readInterval.1 : Nat) : Int) * aligner.matchScore
  -- Handle the mismatches.
  let score := score - (extension.internalScore : Int) * (aligner.matchScore + aligner.mismatch)
  -- Handle full-length bonuses.
  let score := score + (if extension.leftFull then aligner.fullLengthBonus else 0)
  let score := score + (if extension.rightFull then aligner.fullLengthBonus else 0)
  { extension with score := score }

/-- `ReadMasker::ReadMasker(valid_chars)`: a 256-entry table initialized to
'X' with the valid characters mapped to themselves. -/
def ReadMasker.mk (validChars : List Char) : List Char :=
  validChars.foldl (fun mask c => mask.set c.toNat c) (List.replicate 256 'X')

/-- `ReadMasker::operator()` on a single character: look the character up in
the table.  A character code outside the table is undefined behaviour in the
source (signed char cast); the model returns 'X' there. -/
def ReadMasker.apply (mask : List Char) (c : Char) : Char := mask.getD c.toNat 'X'

/-- The masker both extenders construct: `mask("ACGT")`. -/
def acgtMask : List Char := ReadMasker.mk ['A', 'C', 'G', 'T']

/-- `this->mask(sequence)`: mask every character of the read. -/
def readMask (sequence : List Char) : List Char :=
  sequence.map (ReadMasker.apply acgtMask)

/-- `WFAAlignment::Edit`: the four edit operation kinds (match is a Lean
keyword, hence the E suffixes). -/
inductive WFAEdit where
  | matchE
  | mismatchE
  | insertionE
  | deletionE
deriving DecidableEq, Repr

/-- `WFAAlignment`: path of handles, run-length edit script, node offset of
the first node, sequence offset, length in the sequence, and score. -/
structure WFAAlignment where
  path : List GNode
  edits : List (WFAEdit × Nat)
  nodeOffset : Nat
  seqOffset : Nat
  length : Nat
  score : Int
deriving DecidableEq, Repr

/-- The empty alignment `WFAAlignment()` returned on failure. -/
def WFAAlignment.mkEmpty : WFAAlignment :=
  { path := [], edits := [], nodeOffset := 0, seqOffset := 0, length := 0, score := 0 }

/-- Increment the length of the last run of an edit script
(`++edits.back().second`). -/
def bumpLastEdit : List (WFAEdit × Nat) → List (WFAEdit × Nat)
  | [] => []
  | [(e, n)] => [(e, n + 1)]
  | x :: rest => x :: bumpLastEdit rest

/-- One iteration of the mismatch loop in
`WFAAlignment::WFAAlignment(const GaplessExtension&)`: state is the edit
script built so far and `edits_made_up_to`. -/
def ofGaplessStep (st : List (WFAEdit × Nat) × Nat) (mismatchAt : Nat) :
    List (WFAEdit × Nat) × Nat :=
  let edits := st.1
  let editsMadeUpTo := st.2
  let edits :=
    if edits ≠ [] ∧ editsMadeUpTo = mismatchAt ∧
        (edits.getLast?.map Prod.fst) = some WFAEdit.mismatchE then
      -- If we can glom it onto an existing mismatch, do that.
      bumpLastEdit edits
    else
      -- Otherwise, we need some new edits
      let edits :=
        if editsMadeUpTo < mismatchAt then
          -- Add a match for the intervening non-mismatch sequence
          edits ++ [(WFAEdit.matchE, mismatchAt - editsMadeUpTo)]
        else edits
      -- Add a new 1 base mismatch
      edits ++ [(WFAEdit.mismatchE, 1)]
  -- Advance the cursor to through this mismatch (source: `edits_made_up_to = mismatch_at;`)
  (edits, mismatchAt)

/-- `WFAAlignment::WFAAlignment(const GaplessExtension&)`: convert a gapless
extension to a WFA alignment, materializing edits for the mismatches. -/
def WFAAlignment.ofGapless (extension : GaplessExtension) : WFAAlignment :=
  let seqOffset := extension.readInterval.1
  let length := extension.length
  let st := extension.mismatchPositions.foldl ofGaplessStep ([], seqOffset)
  let edits :=
    if st.2 < seqOffset + length then
      -- Add any trailing match
      st.1 ++ [(WFAEdit.matchE, seqOffset + length - st.2)]
    else st.1
  { path := extension.path, edits := edits, nodeOffset := extension.offset,
    seqOffset := seqOffset, length := length, score := extension.score }

/-- The sum of all edit-run lengths of an alignment's edit script. -/
def WFAAlignment.editLengthSum (a : WFAAlignment) : Nat :=
  (a.edits.map Prod.snd).sum

/-- Total length of the deletion runs of an edit script. -/
def WFAAlignment.deletionSum (a : WFAAlignment) : Nat :=
  (a.edits.filterMap (fun e => if e.1 = WFAEdit.deletionE then some e.2 else none)).sum

/-- Total length of the insertion runs of an edit script. -/
def WFAAlignment.insertionSum (a : WFAAlignment) : Nat :=
  (a.edits.filterMap (fun e => if e.1 = WFAEdit.insertionE then some e.2 else none)).sum

/-!  Matching routines of the seed-extension engine.  The source compares
8-byte chunks (`memcpy` into `uint64_t`) and falls back to a per-character
loop when the chunks differ; two zero-padded chunks of `len` bytes are equal
exactly when the `len` characters are equal, which is what the model
compares. -/

/-- Per-character inner loop of `match_forward`: processes `len` characters
from `seq[readEnd]` against `target[nodeOffset]`, stopping before the
mismatch count reaches `limit`.  Returns (stopped-early, readEnd,
nodeOffset, internalScore). -/
def matchForwardChars (seq target : List Char) (limit : Nat) :
    Nat → Nat → Nat → Nat → Bool × Nat × Nat × Nat
  | 0, r, n, i => (false, r, n, i)
  | len + 1, r, n, i =>
    if seq.getD r 'X' ≠ target.getD n 'X' then
      if i + 1 ≥ limit then (true, r, n, i)
      else matchForwardChars seq target limit len (r + 1) (n + 1) (i + 1)
    else matchForwardChars seq target limit len (r + 1) (n + 1) i

/-- Chunked outer loop of `match_forward`.  `left` is the number of
characters still comparable; state is (readEnd, nodeOffset, internalScore).
Each iteration consumes at least one character of `left`, so structural
fuel equal to the initial `left` makes the model compute exactly the
source's loop (the fuel-exhausted base case is unreachable). -/
def matchForwardGo (seq target : List Char) (limit : Nat) :
    Nat → Nat → Nat → Nat → Nat → Nat × Nat × Nat
  | 0, _, r, n, i => (r, n, i)
  | fuel + 1, left, r, n, i =>
    if left = 0 then (r, n, i)
    else
      let len := min left 8
      if (seq.drop r).take len = (target.drop n).take len then
        matchForwardGo seq target limit fuel (left - len) (r + len) (n + len) i
      else
        match matchForwardChars seq target limit len r n i with
        | (true, r', n', i') => (r', n', i')
        | (false, r', n', i') => matchForwardGo seq target limit fuel (left - len) r' n' i'

/-- `match_forward` (gbwt_extender.cpp): match forward from
`read_interval.second` over the target node sequence, stopping before the
mismatch count reaches `mismatch_limit`.  Returns the updated extension and
the tail offset (number of node characters consumed). -/
def match_forward (m : GaplessExtension) (seq target : List Char)
    (mismatchLimit : Nat) : GaplessExtension × Nat :=
  let left := min (seq.length - m.readInterval.2) target.length
  let st := matchForwardGo seq target mismatchLimit left left m.readInterval.2 0 m.internalScore
  ({ m with readInterval := (m.readInterval.1, st.1), internalScore := st.2.2 }, st.2.1)

/-- Per-character inner loop of `match_backward`; state is
(read_interval.first, offset, internalScore). -/
def matchBackwardChars (seq target : List Char) (limit : Nat) :
    Nat → Nat → Nat → Nat → Bool × Nat × Nat × Nat
  | 0, rf, off, i => (false, rf, off, i)
  | len + 1, rf, off, i =>
    if seq.getD (rf - 1) 'X' ≠ target.getD (off - 1) 'X' then
      if i + 1 ≥ limit then (true, rf, off, i)
      else matchBackwardChars seq target limit len (rf - 1) (off - 1) (i + 1)
    else matchBackwardChars seq target limit len (rf - 1) (off - 1) i

/-- Chunked outer loop of `match_backward` (structural fuel as in
`matchForwardGo`). -/
def matchBackwardGo (seq target : List Char) (limit : Nat) :
    Nat → Nat → Nat → Nat → Nat → Nat × Nat × Nat
  | 0, _, rf, off, i => (rf, off, i)
  | fuel + 1, left, rf, off, i =>
    if left = 0 then (rf, off, i)
    else
      let len := min left 8
      if (seq.drop (rf - len)).take len = (target.drop (off - len)).take len then
        matchBackwardGo seq target limit fuel (left - len) (rf - len) (off - len) i
      else
        match matchBackwardChars seq target limit len rf off i with
        | (true, rf', off', i') => (rf', off', i')
        | (false, rf', off', i') => matchBackwardGo seq target limit fuel (left - len) rf' off' i'

/-- `match_backward` (gbwt_extender.cpp): match backward from
`read_interval.first` and `offset`, stopping before the mismatch count
reaches `mismatch_limit`. -/
def match_backward (m : GaplessExtension) (seq target : List Char)
    (mismatchLimit : Nat) : GaplessExtension :=
  let left := min m.readInterval.1 m.offset
  let st := matchBackwardGo seq target mismatchLimit left left m.readInterval.1 m.offset m.internalScore
  { m with readInterval := (st.1, m.readInterval.2), offset := st.2.1, internalScore := st.2.2 }

/-- Per-character inner loop of `match_initial` (no mismatch limit). -/
def matchInitialChars (seq target : List Char) :
    Nat → Nat → Nat → Nat → Nat × Nat × Nat
  | 0, r, n, i => (r, n, i)
  | len + 1, r, n, i =>
    if seq.getD r 'X' ≠ target.getD n 'X' then
      matchInitialChars seq target len (r + 1) (n + 1) (i + 1)
    else matchInitialChars seq target len (r + 1) (n + 1) i

/-- Chunked outer loop of `match_initial` (structural fuel as in
`matchForwardGo`). -/
def matchInitialGo (seq target : List Char) :
    Nat → Nat → Nat → Nat → Nat → Nat × Nat × Nat
  | 0, _, r, n, i => (r, n, i)
  | fuel + 1, left, r, n, i =>
    if left = 0 then (r, n, i)
    else
      let len := min left 8
      if (seq.drop r).take len = (target.drop n).take len then
        matchInitialGo seq target fuel (left - len) (r + len) (n + len) i
      else
        match matchInitialChars seq target len r n i with
        | (r', n', i') => matchInitialGo seq target fuel (left - len) r' n' i'

/-- `match_initial` (gbwt_extender.cpp): match the initial node from the
seed's offsets, counting mismatches without limit, and record `old_score`. -/
def match_initial (m : GaplessExtension) (seq target : List Char) : GaplessExtension :=
  let nodeOffset := m.offset
  let left := min (seq.length - m.readInterval.2) (target.length - nodeOffset)
  let st := matchInitialGo seq target left left m.readInterval.2 nodeOffset m.internalScore
  { m with readInterval := (m.readInterval.1, st.1), internalScore := st.2.2,
           oldScore := st.2.2 }

/-- The mismatch ceiling computed by both extension directions of
`GaplessExtender::extend`:
`max(max_mismatches + 1, max_mismatches / 2 + old_score + 1)`. -/
def mismatch_limit (maxMismatches oldScore : Nat) : Nat :=
  max (maxMismatches + 1) (maxMismatches / 2 + oldScore + 1)

/-- Loop of `GaplessExtension::overlap`: the two cursors walk the two paths;
the function sums the lengths of the stretches where both extensions place
the same read position at the same offset of the same handle.  (The source
dereferences a path iterator that cannot run out for well-formed extensions;
the model returns the accumulated overlap if a path is exhausted.) -/
def overlapGo (g : GNode → Nat) (thisEnd anotherEnd : Nat) :
    Nat → List GNode → List GNode → Nat → Nat → Nat → Nat → Nat
  | 0, _, _, _, _, _, _ => 0
  | fuel + 1, tp, ap, tpos, apos, toff, aoff =>
    if tpos < thisEnd ∧ apos < anotherEnd then
      match tp, ap with
      | th :: tt, ah :: at' =>
        if tpos = apos ∧ th = ah ∧ toff = aoff then
          let len := min (g th - toff) (min (thisEnd - tpos) (anotherEnd - apos))
          len + overlapGo g thisEnd anotherEnd fuel tt at' (tpos + len) (apos + len) 0 0
        else if tpos ≤ apos then
          overlapGo g thisEnd anotherEnd fuel tt (ah :: at') (tpos + (g th - toff)) apos 0 aoff
        else
          overlapGo g thisEnd anotherEnd fuel (th :: tt) at' tpos (apos + (g ah - aoff)) toff 0
      | _, _ => 0
    else 0

/-- `GaplessExtension::overlap` (gbwt_extender.cpp): base overlap (in graph
bases) between two extensions.  `g` is the graph's `get_length`. -/
def GaplessExtension.overlap (e : GaplessExtension) (g : GNode → Nat)
    (another : GaplessExtension) : Nat :=
  overlapGo g e.readInterval.2 another.readInterval.2
    (e.path.length + another.path.length) e.path another.path
    e.readInterval.1 another.readInterval.1 e.offset another.offset

/-- The strict comparator passed to `std::sort` by `handle_full_length`:
full-length extensions first, ordered by `internal_score`. -/
def fullLengthLT (a b : GaplessExtension) : Bool :=
  if a.full && b.full then a.internalScore < b.internalScore else a.full

/-- The total preorder corresponding to `fullLengthLT` (`le a b ↔ ¬ lt b a`),
used for sorting: `std::sort` produces some permutation sorted under the
strict comparator, modelled here by merge sort under its companion `le`. -/
def fullLengthLE (a b : GaplessExtension) : Bool :=
  if a.full && b.full then a.internalScore ≤ b.internalScore else !b.full

/-- The comparison `overlap > threshold * length` of `handle_full_length`,
evaluated exactly over the threshold's numerator and denominator
(kernel-computable, and equal to the ℚ comparison: `overlapExceeds_iff`). -/
def overlapExceeds (overlap : Nat) (thr : ℚ) (len : Nat) : Bool :=
  (overlap : Int) * (thr.den : Int) > thr.num * (len : Int)

/-- The greedy selection loop of `handle_full_length`: walk the sorted
candidates; stop at the first non-full extension; keep a candidate only if
its overlap with each previously kept extension `prev` is at most
`overlap_threshold * prev.length()`. -/
def handleFullLengthKeep (g : GNode → Nat) (overlapThreshold : ℚ) :
    List GaplessExtension → List GaplessExtension → List GaplessExtension
  | [], kept => kept
  | x :: rest, kept =>
    if !x.full then kept
    else if kept.any (fun prev =>
        overlapExceeds (x.overlap g prev) overlapThreshold prev.length) then
      handleFullLengthKeep g overlapThreshold rest kept
    else
      handleFullLengthKeep g overlapThreshold rest (kept ++ [x])

/-- Insert into a list sorted under `le` (helper of `sortByLE`). -/
def insertSorted (le : α → α → Bool) (x : α) : List α → List α
  | [] => [x]
  | y :: ys => if le x y then x :: y :: ys else y :: insertSorted le x ys

/-- Insertion sort under a boolean total preorder.  `std::sort` produces an
unspecified permutation sorted under the strict comparator; `sortByLE`
models it by a concrete sorted permutation (kernel-reducible, unlike
well-founded merge sort). -/
def sortByLE (le : α → α → Bool) : List α → List α
  | [] => []
  | x :: xs => insertSorted le x (sortByLE le xs)

/-- `handle_full_length` (gbwt_extender.cpp): sort the candidates (full ones
first by `internal_score`), then greedily keep the ones with sufficiently
low overlap with everything kept before.  The overlap threshold (a C++
`double`, default 0.8) is modelled as a rational. -/
def handle_full_length (g : GNode → Nat) (result : List GaplessExtension)
    (overlapThreshold : ℚ) : List GaplessExtension :=
  handleFullLengthKeep g overlapThreshold (sortByLE fullLengthLE result) []

/-!  The graph access layer consumed by the seed-extension engine
(`gbwtgraph::CachedGBWTGraph`), modelled as oracles for exactly the
operations the source calls. -/

/-- The cached graph object: node lengths, node sequence views,
bidirectional search states of single nodes (`get_bd_state`), haplotype
path extension (`follow_paths`, with a direction flag), and search-state
recomputation for a path (`bd_find`). -/
structure CachedGBWTGraphM where
  getLength : GNode → Nat
  sequenceView : GNode → List Char
  getBdState : GNode → BDState
  followPathsBD : BDState → Bool → List BDState
  bdFind : List GNode → BDState

/-!  `trim_mismatches` (gbwt_extender.cpp): trim mismatches from an
extension to maximize the score.  The scan loop over the mismatch list is
modelled as a fold over annotated steps; each step carries the mismatch
position, the right end of the run of matches that follows it (the next
mismatch position, or `read_interval.second` for the final run), and
whether that run receives the right full-length bonus. -/

/-- Annotated iterations of the scan loop of `trim_mismatches`, one per
mismatch position. -/
def trimSteps (riSecond : Nat) (rightFull : Bool) : List Nat → List (Nat × Nat × Bool)
  | [] => []
  | [m] => [(m, riSecond, rightFull)]
  | m :: m' :: rest => (m, m', false) :: trimSteps riSecond rightFull (m' :: rest)

/-- One iteration of the scan loop acting on the current interval and score:
either extend through the mismatch (paying its penalty) or restart right
after it, then process the following run of matches. -/
def trimStepCur (aligner : Aligner) (st : (Nat × Nat) × Int)
    (step : Nat × Nat × Bool) : (Nat × Nat) × Int :=
  -- See if we should start a new interval after the mismatch.
  let cs :=
    if st.2 ≥ aligner.mismatch then ((st.1.1, st.1.2 + 1), st.2 - aligner.mismatch)
    else ((step.1 + 1, step.1 + 1), (0 : Int))
  -- Process the following run of matches.
  ((cs.1.1, step.2.1),
    cs.2 + ((step.2.1 - cs.1.2 : Nat) : Int) * aligner.matchScore
      + (if step.2.2 then aligner.fullLengthBonus else 0))

/-- The best-interval update of the scan loop of `trim_mismatches`. -/
def trimUpdateBest (st : (Nat × Nat) × Int) (best : (Nat × Nat) × Int) :
    (Nat × Nat) × Int :=
  if st.2 > best.2 ∨
      (st.2 > 0 ∧ st.2 = best.2 ∧ interval_length st.1 > interval_length best.1) then
    st
  else best

/-- State of the scan loop of `trim_mismatches`. -/
structure TrimState where
  cur : Nat × Nat
  curScore : Int
  best : Nat × Nat
  bestScore : Int
deriving DecidableEq, Repr

/-- One full iteration of the scan loop of `trim_mismatches`. -/
def trimStep (aligner : Aligner) (st : TrimState) (step : Nat × Nat × Bool) : TrimState :=
  let cs := trimStepCur aligner (st.cur, st.curScore) step
  let b := trimUpdateBest cs (st.best, st.bestScore)
  { cur := cs.1, curScore := cs.2, best := b.1, bestScore := b.2 }

/-- The scan loop of `trim_mismatches` over all mismatch positions. -/
def trimScan (aligner : Aligner) (riSecond : Nat) (rightFull : Bool)
    (ms : List Nat) (init : TrimState) : TrimState :=
  (trimSteps riSecond rightFull ms).foldl (trimStep aligner) init

/-- `in_place_subvector` (gbwt_extender.cpp): keep `[head, tail)` of a
vector; an invalid range clears it. -/
def in_place_subvector (l : List α) (head tail : Nat) : List α :=
  if head ≥ tail ∨ tail > l.length then [] else (l.take tail).drop head

/-- The head-trimming loop of `trim_mismatches`: walk the path until the
read offset passes the new interval start.  Returns the number of dropped
nodes, the new node offset, and the read offset reached.  (If the loop falls
off the path — impossible for a well-formed extension — the threaded node
offset is returned.) -/
def trimPathHead (g : GNode → Nat) (bestFirst : Nat) :
    List GNode → Nat → Nat → Nat × Nat × Nat
  | [], nodeOffset, readOffset => (0, nodeOffset, readOffset)
  | h :: rest, nodeOffset, readOffset =>
    let nodeLength := g h
    let readOffset := readOffset + (nodeLength - nodeOffset)
    if readOffset > bestFirst then
      (0, nodeLength - (readOffset - bestFirst), readOffset)
    else
      let st := trimPathHead g bestFirst rest 0 readOffset
      (st.1 + 1, st.2)

/-- The tail-trimming loop of `trim_mismatches`: extend the kept node range
until the read offset reaches the new interval end; returns the index one
past the last kept node. -/
def trimPathTail (g : GNode → Nat) (bestSecond : Nat) :
    List GNode → Nat → Nat → Nat
  | [], tail, _ => tail
  | h :: rest, tail, readOffset =>
    if readOffset < bestSecond then
      trimPathTail g bestSecond rest (tail + 1) (readOffset + g h)
    else tail

/-- `trim_mismatches` (gbwt_extender.cpp): trim mismatches from the
extension to maximize the score; returns the updated extension and whether
it was trimmed. -/
def trim_mismatches (extension : GaplessExtension) (graph : CachedGBWTGraphM)
    (aligner : Aligner) : GaplessExtension × Bool :=
  match extension.mismatchPositions with
  | [] => (extension, false)
  | m0 :: _ =>
    -- Start with the initial run of matches.
    let cur0 : Nat × Nat := (extension.readInterval.1, m0)
    let score0 : Int := (interval_length cur0 : Int) * aligner.matchScore
      + (if extension.leftFull then aligner.fullLengthBonus else 0)
    -- Process the alignment, tracking the best interval seen so far.
    let st := trimScan aligner extension.readInterval.2 extension.rightFull
      extension.mismatchPositions ⟨cur0, score0, cur0, score0⟩
    -- Special cases: no trimming or complete trimming.
    if st.best = extension.readInterval then (extension, false)
    else if interval_length st.best = 0 then
      ({ extension with
          path := []
          readInterval := st.best
          mismatchPositions := []
          score := 0
          leftFull := false
          rightFull := false }, true)
    else
      -- Update alignment statistics.
      let leftFull := if st.best.1 > extension.readInterval.1 then false else extension.leftFull
      let rightFull := if st.best.2 < extension.readInterval.2 then false else extension.rightFull
      -- Trim the path.
      let ph := trimPathHead graph.getLength st.best.1 extension.path
        extension.offset extension.readInterval.1
      let head := ph.1
      let tail := trimPathTail graph.getLength st.best.2
        (extension.path.drop (head + 1)) (head + 1) ph.2.2
      let path :=
        if head > 0 ∨ tail < extension.path.length then
          in_place_subvector extension.path head tail
        else extension.path
      let state :=
        if head > 0 ∨ tail < extension.path.length then graph.bdFind path
        else extension.state
      -- Trim the mismatches.
      let mh := (extension.mismatchPositions.takeWhile (fun m => m < st.best.1)).length
      let mt := mh +
        ((extension.mismatchPositions.drop mh).takeWhile (fun m => m < st.best.2)).length
      let ms := in_place_subvector extension.mismatchPositions mh mt
      ({ extension with
          readInterval := st.best
          score := st.bestScore
          leftFull := leftFull
          rightFull := rightFull
          offset := ph.2.1
          path := path
          state := state
          mismatchPositions := ms }, true)

/-!  The graph-generalized wavefront aligner: `MatchPos`, `WFAPoint`,
`WFANode`, `WFATree` and `WFAExtender::connect`.  Loops whose termination
depends on tree well-formedness (parent walks, the recursive expansion of
`extend_over`, the backtrace) take an explicit fuel argument; with adequate
fuel the model computes exactly what the source computes. -/

/-- `pos_t`: a graph position (node id, orientation, offset). -/
structure PosT where
  id : Nat
  rev : Bool
  off : Nat
deriving DecidableEq, Repr

/-- `WFATree::no_pos`: the empty position has node id 0. -/
def no_pos (p : PosT) : Bool := p.id == 0

/-- The graph operations consumed by the WFA side (`gbwtgraph::GBWTGraph`):
node lengths, node sequence views, the search state of a single node
(`get_state`), and unidirectional haplotype path extension
(`follow_paths`). -/
structure GBWTGraphM where
  getLength : GNode → Nat
  sequenceView : GNode → List Char
  getState : GNode → SearchState
  followPaths : SearchState → List SearchState

/-- `MatchPos`: a position in the alignment, with a stack of tree offsets
from a leaf to the relevant node (head of the list is the top of the
stack). -/
structure MatchPos where
  seqOffset : Nat
  nodeOffset : Nat
  path : List Nat
deriving DecidableEq, Repr

/-- The empty `MatchPos()`. -/
def MatchPos.mkEmpty : MatchPos := ⟨0, 0, []⟩

/-- `MatchPos::empty()`. -/
def MatchPos.isEmpty (p : MatchPos) : Bool := p.path.isEmpty

/-- `MatchPos::at_last_node()`. -/
def MatchPos.atLastNode (p : MatchPos) : Bool := p.path.length == 1

/-- `MatchPos::node()`: the top of the path stack. -/
def MatchPos.node (p : MatchPos) : Nat := p.path.headD 0

/-- `MatchPos::operator<`: empty positions are smaller; otherwise order by
sequence offset. -/
def MatchPos.lt (a b : MatchPos) : Bool :=
  if a.isEmpty then true
  else if b.isEmpty then false
  else a.seqOffset < b.seqOffset

/-- `MatchPos::max`: the non-empty position further on the sequence. -/
def MatchPos.maxPos (a b : MatchPos) : MatchPos :=
  if a.isEmpty then b
  else if b.isEmpty then a
  else if a.seqOffset > b.seqOffset then a else b

/-- `WFAPoint`: a point in a WFA score matrix. -/
structure WFAPoint where
  score : Int
  diagonal : Int
  seqOffset : Nat
  nodeOffset : Nat
deriving DecidableEq, Repr

/-- `WFAPoint::target_offset()`. -/
def WFAPoint.targetOffset (p : WFAPoint) : Int := (p.seqOffset : Int) - p.diagonal

/-- `WFAPoint::alignment_score()`: the four-parameter alignment score of the
point; C++ `int32_t` division truncates toward zero (`Int.tdiv`). -/
def WFAPoint.alignmentScore (p : WFAPoint) (aligner : Aligner) : Int :=
  Int.tdiv (aligner.matchScore * ((p.seqOffset : Int) + p.targetOffset) - p.score) 2

/-- `WFAPoint::operator<`: order by score, then diagonal. -/
def WFAPoint.keyLT (a b : WFAPoint) : Bool :=
  a.score < b.score || (a.score == b.score && a.diagonal < b.diagonal)

/-- `WFAPoint::pos()`. -/
def WFAPoint.pos (p : WFAPoint) (path : List Nat) : MatchPos :=
  ⟨p.seqOffset, p.nodeOffset, path⟩

/-- The three wavefront matrices of a `WFANode` (`MATCHES`, `INSERTIONS`,
`DELETIONS`). -/
inductive WFType where
  | matches
  | insertions
  | deletions
deriving DecidableEq, Repr

/-- `WFANode`: a haplotype search state in the lazily expanded tree, with
parent/children arena offsets, the dead-end flag and the three wavefronts
(kept sorted by (score, diagonal)). -/
structure WFANode where
  state : SearchState
  parent : Nat
  children : List Nat
  deadEnd : Bool
  wfMatches : List WFAPoint
  wfInsertions : List WFAPoint
  wfDeletions : List WFAPoint
deriving DecidableEq, Repr

/-- `WFANode::WFANode(state, parent)`. -/
def WFANode.make (state : SearchState) (parent : Nat) : WFANode :=
  ⟨state, parent, [], false, [], [], []⟩

instance : Inhabited WFANode := ⟨WFANode.make ⟨⟨0, false⟩, (1, 0)⟩ 0⟩

/-- Select a wavefront of a node. -/
def WFANode.wavefront (n : WFANode) : WFType → List WFAPoint
  | WFType.matches => n.wfMatches
  | WFType.insertions => n.wfInsertions
  | WFType.deletions => n.wfDeletions

/-- Replace a wavefront of a node. -/
def WFANode.setWavefront (n : WFANode) (t : WFType) (pts : List WFAPoint) : WFANode :=
  match t with
  | WFType.matches => { n with wfMatches := pts }
  | WFType.insertions => { n with wfInsertions := pts }
  | WFType.deletions => { n with wfDeletions := pts }

/-- `WFANode::is_leaf()`. -/
def WFANode.isLeaf (n : WFANode) : Bool := n.children.isEmpty || n.deadEnd

/-- `WFANode::expanded()`. -/
def WFANode.expanded (n : WFANode) : Bool := !n.children.isEmpty || n.deadEnd

/-- `WFANode::same_node(pos)`: same node id and orientation. -/
def WFANode.sameNode (n : WFANode) (pos : PosT) : Bool :=
  n.state.node.id == pos.id && n.state.node.rev == pos.rev

/-- `WFANode::length(graph)`. -/
def WFANode.nodeLength (n : WFANode) (graph : GBWTGraphM) : Nat :=
  graph.getLength n.state.node

/-- `std::lower_bound` on a (score, diagonal)-sorted point vector: the first
point not below the key. -/
def lowerBoundPoint (points : List WFAPoint) (key : WFAPoint) : Option WFAPoint :=
  points.find? (fun p => !(WFAPoint.keyLT p key))

/-- `WFANode::find_pos`: the point for the given score and diagonal with the
given path, or an empty position. -/
def WFANode.findPos (n : WFANode) (t : WFType) (score diagonal : Int)
    (path : List Nat) : MatchPos :=
  let key : WFAPoint := ⟨score, diagonal, 0, 0⟩
  match lowerBoundPoint (n.wavefront t) key with
  | none => MatchPos.mkEmpty
  | some p => if WFAPoint.keyLT key p then MatchPos.mkEmpty else p.pos path

/-- Insert-or-replace into a (score, diagonal)-sorted point vector at the
`lower_bound` position. -/
def insertPoint : List WFAPoint → WFAPoint → List WFAPoint
  | [], key => [key]
  | p :: rest, key =>
    if WFAPoint.keyLT p key then p :: insertPoint rest key
    else if WFAPoint.keyLT key p then key :: p :: rest
    else key :: rest

/-- `WFANode::update`: record the furthest position for (score, diagonal). -/
def WFANode.update (n : WFANode) (t : WFType) (score diagonal : Int)
    (seqOffset nodeOffset : Nat) : WFANode :=
  n.setWavefront t (insertPoint (n.wavefront t) ⟨score, diagonal, seqOffset, nodeOffset⟩)

/-- Character loop of `WFANode::match_forward`: advance while the sequence
matches the node sequence. -/
def wfaMatchForwardLoop (sequence nodeSeq : List Char) :
    Nat → Nat → Nat → Nat × Nat
  | 0, so, no => (so, no)
  | fuel + 1, so, no =>
    if so < sequence.length ∧ no < nodeSeq.length ∧
        sequence.getD so 'X' = nodeSeq.getD no 'X' then
      wfaMatchForwardLoop sequence nodeSeq fuel (so + 1) (no + 1)
    else (so, no)

/-- `WFANode::match_forward`: extend a position to the first non-match. -/
def WFANode.matchForwardPos (n : WFANode) (sequence : List Char)
    (graph : GBWTGraphM) (pos : MatchPos) : MatchPos :=
  let nodeSeq := graph.sequenceView n.state.node
  let st := wfaMatchForwardLoop sequence nodeSeq (sequence.length + 1)
    pos.seqOffset pos.nodeOffset
  { pos with seqOffset := st.1, nodeOffset := st.2 }

/-- `WFATree`: the arena of `WFANode`s, the best candidate found so far, the
WFA penalty parameters, the score bound, and the diagonal ranges.  The
graph and the sequence (references in the source) are passed to the
operations explicitly. -/
structure WFATree where
  nodes : List WFANode
  candidatePoint : WFAPoint
  candidateNode : Nat
  mismatch : Int
  gapOpen : Int
  gapExtend : Int
  scoreBound : Int
  diagonals : List (Int × Int)
  maxDiagonals : Int × Int
deriving DecidableEq, Repr

/-- `WFATree::WFATree(graph, sequence, root, aligner)`: derive the WFA
penalties from the aligner, seed the arena with the root node, and compute
the score bound from the approximate error model.  (The source computes the
edit bounds in double precision; the model uses the exact rational values of
the double literals, without modelling the rounding of the products, which
none of the verified properties depend on.) -/
def WFATree.make (sequence : List Char) (root : SearchState)
    (aligner : Aligner) : WFATree :=
  let mismatch : Int := 2 * (aligner.matchScore + aligner.mismatch)
  let gapOpen : Int := 2 * aligner.gapOpen
  let gapExtend : Int := 2 * aligner.gapExtension + aligner.matchScore
  -- Determine a reasonable upper bound for the number of edits.  The double
  -- literals 0.03, 0.05 and 0.1 have the exact rational values
  -- 1080863910568919/2^55, 3602879701896397/2^56 and 3602879701896397/2^55;
  -- `int32_t x = c * n + 1` truncates the positive value c*n + 1, i.e.
  -- ⌊c*n⌋ + 1, computed here by integer division (the rounding of the
  -- double product is not modelled; nothing verified depends on it).
  let maxMismatches : Int :=
    ((1080863910568919 * sequence.length) / 36028797018963968 : Nat) + 1
  let maxGaps : Int :=
    ((3602879701896397 * sequence.length) / 72057594037927936 : Nat) + 1
  let maxGapLength : Int :=
    ((3602879701896397 * sequence.length) / 36028797018963968 : Nat) + 1
  { nodes := [WFANode.make root 0]
    candidatePoint := ⟨2147483647, 0, 0, 0⟩
    candidateNode := 0
    mismatch := mismatch
    gapOpen := gapOpen
    gapExtend := gapExtend
    scoreBound := maxMismatches * mismatch + maxGaps * gapOpen + maxGapLength * gapExtend
    diagonals := [(0, 0)]
    maxDiagonals := (0, 0) }

/-- `WFATree::size()`. -/
def WFATree.size (t : WFATree) : Nat := t.nodes.length

/-- `WFATree::is_root`. -/
def WFATree.isRoot (node : Nat) : Bool := node == 0

/-- Arena access (`this->nodes[i]`). -/
def WFATree.getNode (t : WFATree) (i : Nat) : WFANode := t.nodes.getD i default

/-- Arena update. -/
def WFATree.setNode (t : WFATree) (i : Nat) (n : WFANode) : WFATree :=
  { t with nodes := t.nodes.set i n }

/-- `WFATree::parent`. -/
def WFATree.parent (t : WFATree) (node : Nat) : Nat := (t.getNode node).parent

/-- `WFATree::gap_penalty(length)` (assumes length > 0). -/
def WFATree.gapPenalty (t : WFATree) (len : Nat) : Int :=
  t.gapOpen + (len : Int) * t.gapExtend

/-- `WFATree::at_dead_end`. -/
def WFATree.atDeadEnd (t : WFATree) (graph : GBWTGraphM) (pos : MatchPos) : Bool :=
  (t.getNode pos.node).deadEnd &&
    pos.nodeOffset ≥ (t.getNode pos.node).nodeLength graph

/-- Parent walk of `WFATree::find_pos`; the fuel (the arena size suffices
for a well-formed tree, where parents precede children) models the
unbounded `while (true)`. -/
def WFATree.findPosGo (t : WFATree) (graph : GBWTGraphM) (seqLen : Nat)
    (ty : WFType) (score diagonal : Int) (extendableSeq extendableGraph : Bool) :
    Nat → Nat → List Nat → MatchPos
  | 0, _, _ => MatchPos.mkEmpty
  | fuel + 1, node, path =>
    let path := node :: path
    let pos := (t.getNode node).findPos ty score diagonal path
    if !pos.isEmpty then
      if extendableSeq && pos.seqOffset ≥ seqLen then MatchPos.mkEmpty
      else if extendableGraph && t.atDeadEnd graph pos then MatchPos.mkEmpty
      else pos
    else if WFATree.isRoot node then MatchPos.mkEmpty
    else t.findPosGo graph seqLen ty score diagonal extendableSeq extendableGraph
      fuel (t.parent node) path

/-- `WFATree::find_pos`: the furthest position in the given matrix for
(score, diagonal) at the node or its ancestors. -/
def WFATree.findPos (t : WFATree) (graph : GBWTGraphM) (seqLen : Nat)
    (ty : WFType) (node : Nat) (score diagonal : Int)
    (extendableSeq extendableGraph : Bool) : MatchPos :=
  if score < 0 then MatchPos.mkEmpty
  else t.findPosGo graph seqLen ty score diagonal extendableSeq extendableGraph
    (t.size + 1) node []

/-- `WFATree::ins_predecessor`. -/
def WFATree.insPredecessor (t : WFATree) (graph : GBWTGraphM) (seqLen : Nat)
    (node : Nat) (score diagonal : Int) : MatchPos × WFAEdit :=
  let openP := t.findPos graph seqLen WFType.matches node
    (score - t.gapOpen - t.gapExtend) (diagonal - 1) true false
  let extendP := t.findPos graph seqLen WFType.insertions node
    (score - t.gapExtend) (diagonal - 1) true false
  if MatchPos.lt openP extendP then (extendP, WFAEdit.insertionE)
  else (openP, WFAEdit.matchE)

/-- `WFATree::del_predecessor`. -/
def WFATree.delPredecessor (t : WFATree) (graph : GBWTGraphM) (seqLen : Nat)
    (node : Nat) (score diagonal : Int) : MatchPos × WFAEdit :=
  let openP := t.findPos graph seqLen WFType.matches node
    (score - t.gapOpen - t.gapExtend) (diagonal + 1) false true
  let extendP := t.findPos graph seqLen WFType.deletions node
    (score - t.gapExtend) (diagonal + 1) false true
  if MatchPos.lt openP extendP then (extendP, WFAEdit.deletionE)
  else (openP, WFAEdit.matchE)

/-- `WFATree::match_predecessor`. -/
def WFATree.matchPredecessor (t : WFATree) (graph : GBWTGraphM) (seqLen : Nat)
    (node : Nat) (score diagonal : Int) : MatchPos × WFAEdit :=
  let ins := t.findPos graph seqLen WFType.insertions node score diagonal false false
  let del := t.findPos graph seqLen WFType.deletions node score diagonal false false
  let subst0 := t.findPos graph seqLen WFType.matches node (score - t.mismatch) diagonal false false
  let subst := if !subst0.isEmpty then
      { subst0 with seqOffset := subst0.seqOffset + 1, nodeOffset := subst0.nodeOffset + 1 }
    else subst0
  if MatchPos.lt ins del then
    if MatchPos.lt del subst then (subst, WFAEdit.mismatchE) else (del, WFAEdit.deletionE)
  else
    if MatchPos.lt ins subst then (subst, WFAEdit.mismatchE) else (ins, WFAEdit.insertionE)

/-- `WFATree::predecessor_offset`: step one base backwards, moving to the
parent node at offset 0. -/
def WFATree.predecessorOffset (t : WFATree) (graph : GBWTGraphM)
    (node offset : Nat) : Nat × Nat :=
  if offset > 0 then (node, offset - 1)
  else
    let p := t.parent node
    (p, (t.getNode p).nodeLength graph - 1)

/-- `WFATree::get_leaves`. -/
def WFATree.getLeaves (t : WFATree) : List Nat :=
  (List.range t.size).filter (fun i => (t.getNode i).isLeaf)

/-- `WFATree::update_range`. -/
def WFATree.updateRange (t : WFATree) (range : Int × Int) (score : Int) : Int × Int :=
  if score > 0 then
    let d := t.diagonals.getD score.toNat (0, 0)
    (min range.1 d.1, max range.2 d.2)
  else range

/-- `WFATree::get_diagonals`: the diagonal range for the score; updates
`diagonals` and `max_diagonals`. -/
def WFATree.getDiagonals (t : WFATree) (score : Int) : (Int × Int) × WFATree :=
  let range : Int × Int := (0, 0)
  let range := t.updateRange range (score - t.mismatch)
  let range := t.updateRange range (score - t.gapOpen - t.gapExtend)
  let range := t.updateRange range (score - t.gapExtend)
  let range := (range.1 - 1, range.2 + 1)
  let maxD := (min t.maxDiagonals.1 range.1, max t.maxDiagonals.2 range.2)
  let ds := t.diagonals.take (score.toNat + 1)
  let ds := ds ++ List.replicate (score.toNat + 1 - ds.length) ((0 : Int), (0 : Int))
  let ds := ds.set score.toNat range
  (range, { t with diagonals := ds, maxDiagonals := maxD })

/-- `WFATree::propagate`: if the position reaches the end of its last node,
expand the children (marking a dead end when no haplotype continues) and
copy the position into each child's wavefront at offset 0. -/
def WFATree.propagate (t : WFATree) (graph : GBWTGraphM) (pos : MatchPos)
    (score diagonal : Int) (ty : WFType) : WFATree × Bool :=
  if !pos.atLastNode || pos.nodeOffset < (t.getNode pos.node).nodeLength graph then
    (t, false)
  else
    let n := pos.node
    let t :=
      if !(t.getNode n).expanded then
        let childStates := graph.followPaths (t.getNode n).state
        if childStates.isEmpty then t.setNode n { t.getNode n with deadEnd := true }
        else
          childStates.foldl (fun t cs =>
            let t := t.setNode n
              { t.getNode n with children := (t.getNode n).children ++ [t.size] }
            { t with nodes := t.nodes ++ [WFANode.make cs n] }) t
      else t
    let t := (t.getNode n).children.foldl (fun t child =>
      t.setNode child ((t.getNode child).update ty score diagonal pos.seqOffset 0)) t
    (t, !(t.getNode n).children.isEmpty)

/-!  `wf_extend` / `wf_next` of the graph-WFA loop. -/

/-- The closed integer range `[lo, hi]` as a list. -/
def intRange (lo hi : Int) : List Int :=
  (List.range (hi + 1 - lo).toNat).map (fun k => lo + k)

mutual

/-- `WFATree::extend_over`: run `wf_extend` on one diagonal over a list of
leaves.  The fuel (decremented on every recursive step, making the mutual
recursion structural and kernel-reducible) bounds the leaf iteration and
the recursive descent into newly expanded children; with adequate fuel the
model computes exactly what the source computes. -/
def WFATree.extendOver (graph : GBWTGraphM) (sequence : List Char) (toPos : PosT)
    (score diagonal : Int) : Nat → List Nat → WFATree → WFATree
  | 0, _, t => t
  | _ + 1, [], t => t
  | fuel + 1, leaf :: rest, t =>
    let pos := t.findPos graph sequence.length WFType.matches leaf score diagonal false false
    let t :=
      if pos.isEmpty then t  -- This should never happen.
      else WFATree.extendOverLoop graph sequence toPos score diagonal fuel pos t
    WFATree.extendOver graph sequence toPos score diagonal fuel rest t

/-- The `while (true)` body of `WFATree::extend_over`: greedily match, record
candidates at the target, and walk down the position's path stack across
node boundaries, recursing into the children expanded by `propagate`. -/
def WFATree.extendOverLoop (graph : GBWTGraphM) (sequence : List Char) (toPos : PosT)
    (score diagonal : Int) : Nat → MatchPos → WFATree → WFATree
  | 0, _, t => t
  | fuel + 1, pos, t =>
    let n := pos.node
    let mayReachTo := (t.getNode n).sameNode toPos && pos.nodeOffset ≤ toPos.off
    let pos := (t.getNode n).matchForwardPos sequence graph pos
    -- We got a match that covers the end position but may extend past it,
    -- or there is no end position and the entire sequence is aligned.
    let t :=
      if (mayReachTo && pos.nodeOffset > toPos.off) ||
          (no_pos toPos && pos.seqOffset ≥ sequence.length) then
        let overshoot := if no_pos toPos then 0 else pos.nodeOffset - toPos.off - 1
        let gapLength := (sequence.length - pos.seqOffset) + overshoot
        let newScore := score + (if gapLength > 0 then t.gapPenalty gapLength else 0)
        if newScore < t.candidatePoint.score then
          { t with candidatePoint := ⟨newScore, diagonal, pos.seqOffset - overshoot, toPos.off + 1⟩
                   candidateNode := n }
        else t
      else t
    let t := t.setNode n
      ((t.getNode n).update WFType.matches score diagonal pos.seqOffset pos.nodeOffset)
    if pos.nodeOffset < (t.getNode n).nodeLength graph then t
    else if pos.atLastNode then
      let pr := t.propagate graph pos score diagonal WFType.matches
      if pr.2 then
        -- Copy the children: at this point pos is at the original leaf.
        let newLeaves := (pr.1.getNode n).children
        WFATree.extendOver graph sequence toPos score diagonal fuel newLeaves pr.1
      else pr.1
    else
      WFATree.extendOverLoop graph sequence toPos score diagonal fuel
        { pos with path := pos.path.tail, nodeOffset := 0 } t

end

/-- `WFATree::extend` (`wf_extend` in the paper): extend over every diagonal
currently reachable, recomputing the leaves per diagonal. -/
def WFATree.extend (t : WFATree) (graph : GBWTGraphM) (sequence : List Char)
    (fuel : Nat) (score : Int) (toPos : PosT) : WFATree :=
  (intRange t.maxDiagonals.1 t.maxDiagonals.2).foldl (fun t diagonal =>
    let leaves := t.getLeaves
    WFATree.extendOver graph sequence toPos score diagonal fuel leaves t) t

/-- The per-leaf body of `WFATree::next`. -/
def WFATree.nextLeaf (graph : GBWTGraphM) (sequence : List Char) (toPos : PosT)
    (score diagonal : Int) (t : WFATree) (leaf : Nat) : WFATree :=
  -- Insertion.
  let ins := (t.insPredecessor graph sequence.length leaf score diagonal).1
  let ins := if !ins.isEmpty then { ins with seqOffset := ins.seqOffset + 1 } else ins
  let t :=
    if !ins.isEmpty then
      t.setNode ins.node
        ((t.getNode ins.node).update WFType.insertions score diagonal ins.seqOffset ins.nodeOffset)
    else t
  -- Deletion.
  let del := (t.delPredecessor graph sequence.length leaf score diagonal).1
  let del := if !del.isEmpty then { del with nodeOffset := del.nodeOffset + 1 } else del
  let t :=
    if !del.isEmpty then
      let t := t.setNode del.node
        ((t.getNode del.node).update WFType.deletions score diagonal del.seqOffset del.nodeOffset)
      (t.propagate graph del score diagonal WFType.deletions).1
    else t
  -- Mismatch.
  let subst := t.findPos graph sequence.length WFType.matches leaf (score - t.mismatch) diagonal true true
  let subst := if !subst.isEmpty then
      { subst with seqOffset := subst.seqOffset + 1, nodeOffset := subst.nodeOffset + 1 }
    else subst
  let subst := MatchPos.maxPos subst ins
  let subst := MatchPos.maxPos subst del
  if subst.isEmpty then t
  else
    -- Just past the end position: candidate with the rest as an insertion.
    let t :=
      if (t.getNode subst.node).sameNode toPos && subst.nodeOffset == toPos.off + 1 then
        let gapLength := sequence.length - subst.seqOffset
        let newScore := score + (if gapLength > 0 then t.gapPenalty gapLength else 0)
        if newScore < t.candidatePoint.score then
          { t with candidatePoint := ⟨newScore, diagonal, subst.seqOffset, subst.nodeOffset⟩
                   candidateNode := subst.node }
        else t
      else t
    let t := t.setNode subst.node
      ((t.getNode subst.node).update WFType.matches score diagonal subst.seqOffset subst.nodeOffset)
    (t.propagate graph subst score diagonal WFType.matches).1

/-- `WFATree::next` (`wf_next` in the paper). -/
def WFATree.next (t : WFATree) (graph : GBWTGraphM) (sequence : List Char)
    (score : Int) (toPos : PosT) : WFATree :=
  let rt := t.getDiagonals score
  (intRange rt.1.1 rt.1.2).foldl (fun t diagonal =>
    let leaves := t.getLeaves
    leaves.foldl (fun t leaf => WFATree.nextLeaf graph sequence toPos score diagonal t leaf) t)
    rt.2

/-- The inner step of `WFATree::trim`: take a recorded match-wavefront
point when its four-parameter alignment score beats the best score so far.
State: (candidate point, candidate node, best score). -/
def trimPointStep (aligner : Aligner) (node : Nat) (st : WFAPoint × Nat × Int)
    (point : WFAPoint) : WFAPoint × Nat × Int :=
  let alignmentScore := point.alignmentScore aligner
  if alignmentScore > st.2.2 then (point, node, alignmentScore) else st

/-- The per-node step of `WFATree::trim`: scan one node's match wavefront. -/
def trimNodeStep (t : WFATree) (aligner : Aligner) (st : WFAPoint × Nat × Int)
    (node : Nat) : WFAPoint × Nat × Int :=
  ((t.getNode node).wavefront WFType.matches).foldl (trimPointStep aligner node) st

/-- `WFATree::trim(aligner)`: replace the candidate with the recorded
match-wavefront point of the highest four-parameter alignment score
(starting from a zero candidate and a best score of 0). -/
def WFATree.trim (t : WFATree) (aligner : Aligner) : WFATree :=
  let st := (List.range t.size).foldl (trimNodeStep t aligner) (⟨0, 0, 0, 0⟩, 0, 0)
  { t with candidatePoint := st.1, candidateNode := st.2.1 }

/-!  `WFAExtender::connect` and its helpers. -/

/-- `WFAExtender`: graph and aligner pointers (nullable). -/
structure WFAExtender where
  graph : Option GBWTGraphM
  aligner : Option Aligner

/-- The score loop of `connect`: extend at the current score, stop when the
candidate is final, otherwise advance the score, stop past the score bound,
and run `next`.  `loopFuel` models the unbounded loop; `scoreBound + 2`
iterations always suffice. -/
def wfaLoop (graph : GBWTGraphM) (sequence : List Char) (toPos : PosT)
    (fuel : Nat) : Nat → Int → WFATree → WFATree
  | 0, _, t => t
  | lf + 1, score, t =>
    let t := t.extend graph sequence fuel score toPos
    if t.candidatePoint.score ≤ score then t
    else
      let score := score + 1
      if score > t.scoreBound then t
      else wfaLoop graph sequence toPos fuel lf score (t.next graph sequence score toPos)

/-- `WFAAlignment::append(edit, length)`. -/
def addToLastEdit : List (WFAEdit × Nat) → Nat → List (WFAEdit × Nat)
  | [], _ => []
  | [(e, n)], k => [(e, n + k)]
  | x :: rest, k => x :: addToLastEdit rest k

/-- `WFAAlignment::append`: extend the last run or push a new one; appending
a zero length is a no-op. -/
def WFAAlignment.append (a : WFAAlignment) (edit : WFAEdit) (len : Nat) : WFAAlignment :=
  if len = 0 then a
  else if a.edits.isEmpty || ¬ ((a.edits.getLast?.map Prod.fst) = some edit) then
    { a with edits := a.edits ++ [(edit, len)] }
  else { a with edits := addToLastEdit a.edits len }

/-- `WFAAlignment::final_offset(graph)`: offset after the alignment in the
last node, computed in uint32 arithmetic (modelled exactly, including
wraparound). -/
def WFAAlignment.final_offset (a : WFAAlignment) (g : GNode → Nat) : Nat :=
  let fromEdits : Int := (a.nodeOffset : Int) +
    ((a.edits.filterMap (fun e =>
      if e.1 = WFAEdit.insertionE then none else some e.2)).sum : Nat)
  let prefixSum : Int := ((a.path.dropLast.map g).sum : Nat)
  (Int.emod (fromEdits - prefixSum) (2 ^ 32)).toNat

/-- The path-building walk of `connect`: push handles from the candidate
node up to the root (fuel bounds the parent walk). -/
def connectPathWalk (t : WFATree) : Nat → Nat → List GNode → List GNode
  | 0, _, acc => acc
  | fuel + 1, node, acc =>
    let acc := acc ++ [(t.getNode node).state.node]
    if WFATree.isRoot node then acc
    else connectPathWalk t fuel (t.parent node) acc

/-- The backtrace loop of `connect`: walk predecessor links back to score 0,
accumulating the (reversed) run-length edit script. -/
def backtraceGo (t : WFATree) (graph : GBWTGraphM) (seqLen : Nat) :
    Nat → WFAAlignment → WFAPoint → Nat → WFAEdit → WFAAlignment
  | 0, result, _, _, _ => result
  | fuel + 1, result, point, node, edit =>
    if point.seqOffset = 0 ∧ point.diagonal = 0 then result
    else
      match edit with
      | WFAEdit.matchE =>
        let pred := t.matchPredecessor graph seqLen node point.score point.diagonal
        let result := result.append WFAEdit.matchE (point.seqOffset - pred.1.seqOffset)
        backtraceGo t graph seqLen fuel result
          { point with seqOffset := pred.1.seqOffset, nodeOffset := pred.1.nodeOffset }
          pred.1.node pred.2
      | WFAEdit.mismatchE =>
        let result := result.append WFAEdit.mismatchE 1
        let pred := t.predecessorOffset graph node point.nodeOffset
        backtraceGo t graph seqLen fuel result
          { point with seqOffset := point.seqOffset - 1, nodeOffset := pred.2,
                       score := point.score - t.mismatch }
          pred.1 WFAEdit.matchE
      | WFAEdit.insertionE =>
        let pred := t.insPredecessor graph seqLen node point.score point.diagonal
        let result := result.append WFAEdit.insertionE 1
        let score' := if pred.2 = WFAEdit.insertionE then point.score - t.gapExtend
          else point.score - t.gapOpen - t.gapExtend
        backtraceGo t graph seqLen fuel result
          { point with seqOffset := point.seqOffset - 1, score := score',
                       diagonal := point.diagonal - 1 }
          node pred.2
      | WFAEdit.deletionE =>
        let pred := t.delPredecessor graph seqLen node point.score point.diagonal
        let result := result.append WFAEdit.deletionE 1
        let po := t.predecessorOffset graph node point.nodeOffset
        let score' := if pred.2 = WFAEdit.deletionE then point.score - t.gapExtend
          else point.score - t.gapOpen - t.gapExtend
        backtraceGo t graph seqLen fuel result
          { point with nodeOffset := po.2, score := score',
                       diagonal := point.diagonal + 1 }
          po.1 pred.2

/-- The alignment construction of `connect` after a candidate is fixed:
store the path, add the implicit final insertion for a full-length
candidate, backtrace the edits, reverse them, and drop an unused final
node. -/
def connectBuild (graph : GBWTGraphM) (aligner : Aligner) (sequence : List Char)
    (from' : PosT) (fuel : Nat) (t : WFATree) (fullLength : Bool) : WFAAlignment :=
  let result : WFAAlignment :=
    { path := (connectPathWalk t (t.size + 1) t.candidateNode []).reverse
      edits := []
      nodeOffset := from'.off
      seqOffset := 0
      length := t.candidatePoint.seqOffset
      score := t.candidatePoint.alignmentScore aligner }
  let point := t.candidatePoint
  let node := t.candidateNode
  -- Full-length alignment with an implicit insertion at the end.
  let rp :=
    if fullLength ∧ t.candidatePoint.seqOffset < sequence.length then
      let finalInsertion := sequence.length - t.candidatePoint.seqOffset
      (result.append WFAEdit.insertionE finalInsertion,
        { point with score := point.score - t.gapPenalty finalInsertion })
    else (result, point)
  -- Backtrace the edits.
  let result := backtraceGo t graph sequence.length fuel rp.1 rp.2 node WFAEdit.matchE
  let result := { result with edits := result.edits.reverse }
  -- Sometimes no bases of the final node are used.
  if result.final_offset graph.getLength == 0 then
    { result with path := result.path.dropLast }
  else result

/-- The tree state after the score loop of `connect`: construct the
`WFATree` and run the extend/next loop (`scoreBound + 2` loop iterations
always suffice, since the score advances by one per iteration and the loop
stops once the score passes the bound). -/
def connectTree (graph : GBWTGraphM) (aligner : Aligner) (seq : List Char)
    (rootState : SearchState) (toPos : PosT) (fuel : Nat) : WFATree :=
  let tree0 := WFATree.make seq rootState aligner
  wfaLoop graph seq toPos fuel (tree0.scoreBound.toNat + 2) 0 tree0

/-- The post-loop handling of `connect`: without a full-length alignment
within the score bound, trim if there was no destination and fail
otherwise; reject a candidate that aligned nothing; otherwise build the
alignment. -/
def connectFinish (graph : GBWTGraphM) (aligner : Aligner) (seq : List Char)
    (from' toPos : PosT) (fuel : Nat) (tree : WFATree) : WFAAlignment :=
  -- No full-length alignment within the score bound: trim if there was
  -- no destination, otherwise fail.
  if tree.candidatePoint.score > tree.scoreBound ∧ ¬ (no_pos toPos = true) then
    WFAAlignment.mkEmpty
  else
    let trimmed := tree.candidatePoint.score > tree.scoreBound
    let fullLength := ¬ trimmed
    let tree := if trimmed then tree.trim aligner else tree
    if tree.candidatePoint.seqOffset = 0 then WFAAlignment.mkEmpty
    else connectBuild graph aligner seq from' fuel tree fullLength

/-- The body of `connect` after input validation and masking: the score loop
followed by the post-loop handling. -/
def connectCore (graph : GBWTGraphM) (aligner : Aligner) (seq : List Char)
    (rootState : SearchState) (from' toPos : PosT) (fuel : Nat) : WFAAlignment :=
  connectFinish graph aligner seq from' toPos fuel
    (connectTree graph aligner seq rootState toPos fuel)

/-- `WFAExtender::connect(sequence, from, to)`. -/
def WFAExtender.connect (self : WFAExtender) (sequence : List Char)
    (from' toPos : PosT) (fuel : Nat) : WFAAlignment :=
  match self.graph, self.aligner with
  | some graph, some aligner =>
    if sequence.isEmpty then WFAAlignment.mkEmpty
    else
      let rootState := graph.getState ⟨from'.id, from'.rev⟩
      if rootState.isEmpty then WFAAlignment.mkEmpty
      else connectCore graph aligner (readMask sequence) rootState from' toPos fuel
  | _, _ => WFAAlignment.mkEmpty

/-!  `GaplessExtender::extend` and its helpers. -/

/-- A seed (`seed_type`): a handle with a node offset and a read offset
(decoded from the packed payload by `get_handle` / `get_node_offset` /
`get_read_offset`). -/
structure Seed where
  handle : GNode
  nodeOffset : Nat
  readOffset : Nat
deriving DecidableEq, Repr

/-- Loop of `GaplessExtension::contains`: walk the path accumulating read
and node offsets; the seed is contained when some node matches the expected
handle with equal offset differences (computed in size_t arithmetic; the
differences are compared over ℤ, equivalent for realistic offsets). -/
def containsGo (g : CachedGBWTGraphM) (expected : Seed) :
    List GNode → Nat → Nat → Bool
  | [], _, _ => false
  | h :: rest, readOffset, nodeOffset =>
    let len := g.getLength h - nodeOffset
    let readOffset := readOffset + len
    let nodeOffset := nodeOffset + len
    if h = expected.handle ∧
        (readOffset : Int) - expected.readOffset = (nodeOffset : Int) - expected.nodeOffset then
      true
    else containsGo g expected rest readOffset 0

/-- `GaplessExtension::contains(graph, seed)`. -/
def GaplessExtension.contains (e : GaplessExtension) (g : CachedGBWTGraphM)
    (seed : Seed) : Bool :=
  containsGo g seed e.path e.readInterval.1 e.offset

/-- `GaplessExtender`: graph and aligner pointers (nullable). -/
structure GaplessExtender where
  graph : Option CachedGBWTGraphM
  aligner : Option Aligner

/-- `gbwt::SearchState()`: default-constructed empty search state. -/
def emptySearchState : SearchState := ⟨⟨0, false⟩, (1, 0)⟩

/-- `gbwt::BidirectionalState()`: default-constructed empty state. -/
def emptyBDState : BDState := ⟨emptySearchState, emptySearchState⟩

/-- The sentinel `best_match` of `GaplessExtender::extend` before any
maximal extension is found: minimal int32 score and maximal uint32
mismatch counts. -/
def sentinelExtension : GaplessExtension :=
  { path := []
    offset := 0
    state := emptyBDState
    readInterval := (0, 0)
    mismatchPositions := []
    score := -2147483648
    leftFull := false
    rightFull := false
    leftMaximal := false
    rightMaximal := false
    internalScore := 4294967295
    oldScore := 4294967295 }

/-- The sentinel value of `best_alignment` (`std::numeric_limits<size_t>::max()`). -/
def sizeTMax : Nat := 18446744073709551615

/-- Modelled from the spec: `GaplessExtension::operator<` is declared in
gbwt_extender.hpp (not under src/); §4.2 of the spec orders the priority
queue of `extend` by alignment score. -/
def extensionPriorityLT (a b : GaplessExtension) : Bool := a.score < b.score

/-- Pop the best element of the priority queue (`extensions.top()` /
`pop()`): the first maximal element under the priority order. -/
def popBestExtension : List GaplessExtension →
    Option (GaplessExtension × List GaplessExtension)
  | [] => none
  | x :: rest =>
    match popBestExtension rest with
    | none => some (x, [])
    | some (y, rest') =>
      if extensionPriorityLT x y then some (y, x :: rest') else some (x, rest)

/-- Modelled from the spec: the `best_match < curr` comparison of case 3 of
`extend` uses `GaplessExtension::operator<` from gbwt_extender.hpp (not
under src/); §4.2/§9 of the spec describe the comparator as preferring
full-length extensions, then a lower `internal_score`, with the score as
the remaining preference. -/
def bestMatchLT (a b : GaplessExtension) : Bool :=
  if a.full ≠ b.full then b.full
  else if a.internalScore ≠ b.internalScore then b.internalScore < a.internalScore
  else a.score < b.score

/-- Case 1 of the queue loop of `extend`: try to extend `curr` to the right
into one haplotype-consistent successor state; returns the queue and the
`num_extensions` accumulator. -/
def extendRightStep (g : CachedGBWTGraphM) (aligner : Aligner) (seq : List Char)
    (limit : Nat) (curr : GaplessExtension)
    (acc : List GaplessExtension × Nat) (nextState : BDState) :
    List GaplessExtension × Nat :=
  let handle := nextState.forward.node
  let next : GaplessExtension :=
    { path := []
      offset := curr.offset
      state := nextState
      readInterval := curr.readInterval
      mismatchPositions := []
      score := curr.score
      leftFull := curr.leftFull
      rightFull := curr.rightFull
      leftMaximal := curr.leftMaximal
      rightMaximal := curr.rightMaximal
      internalScore := curr.internalScore
      oldScore := curr.oldScore }
  let mf := match_forward next seq (g.sequenceView handle) limit
  let next := mf.1
  let nodeOffset := mf.2
  if nodeOffset = 0 then acc  -- Did not match anything.
  else
    let next := { next with path := curr.path ++ [handle] }
    -- Did the extension become right-maximal?
    let next :=
      if next.readInterval.2 ≥ seq.length then
        { next with rightFull := true, rightMaximal := true, oldScore := next.internalScore }
      else if nodeOffset < g.getLength handle then
        { next with rightMaximal := true, oldScore := next.internalScore }
      else next
    let next := set_score next aligner
    (acc.1 ++ [next], acc.2 + next.state.size)

/-- Case 2 of the queue loop of `extend`: try to extend `curr` to the left;
returns the queue and the `found_extension` flag. -/
def extendLeftStep (g : CachedGBWTGraphM) (aligner : Aligner) (seq : List Char)
    (limit : Nat) (curr : GaplessExtension)
    (acc : List GaplessExtension × Bool) (nextState : BDState) :
    List GaplessExtension × Bool :=
  let handle := GNode.reverse nextState.backward.node
  let nodeLength := g.getLength handle
  let next : GaplessExtension :=
    { path := []
      offset := nodeLength
      state := nextState
      readInterval := curr.readInterval
      mismatchPositions := []
      score := curr.score
      leftFull := curr.leftFull
      rightFull := curr.rightFull
      leftMaximal := curr.leftMaximal
      rightMaximal := curr.rightMaximal
      internalScore := curr.internalScore
      oldScore := curr.oldScore }
  let next := match_backward next seq (g.sequenceView handle) limit
  if next.offset ≥ nodeLength then acc  -- Did not match anything.
  else
    let next := { next with path := handle :: curr.path }
    -- Did the extension become left-maximal?
    let next :=
      if next.readInterval.1 = 0 then
        { next with leftFull := true, leftMaximal := true }
      else if next.offset > 0 then
        { next with leftMaximal := true }
      else next
    let next := set_score next aligner
    (acc.1 ++ [next], true)

/-- The priority-queue loop of `GaplessExtender::extend` for one seed:
extend right-maximally, then left-maximally, then record the best maximal
extension.  The fuel models the unbounded loop. -/
def extendQueueLoop (g : CachedGBWTGraphM) (aligner : Aligner) (seq : List Char)
    (maxMismatches : Nat) :
    Nat → List GaplessExtension → GaplessExtension → GaplessExtension
  | 0, _, best => best
  | fuel + 1, queue, best =>
    match popBestExtension queue with
    | none => best
    | some (curr, queue) =>
      if !curr.rightMaximal then
        -- Case 1: Extend to the right.
        let limit := mismatch_limit maxMismatches curr.oldScore
        let qn := (g.followPathsBD curr.state false).foldl
          (extendRightStep g aligner seq limit curr) (queue, 0)
        -- Not all threads could be extended: re-enqueue curr right-maximal.
        let queue :=
          if qn.2 < curr.state.size then
            qn.1 ++ [{ curr with rightMaximal := true, oldScore := curr.internalScore }]
          else qn.1
        extendQueueLoop g aligner seq maxMismatches fuel queue best
      else if !curr.leftMaximal then
        -- Case 2: Extend to the left.
        let limit := mismatch_limit maxMismatches curr.oldScore
        let qf := (g.followPathsBD curr.state true).foldl
          (extendLeftStep g aligner seq limit curr) (queue, false)
        if qf.2 then extendQueueLoop g aligner seq maxMismatches fuel qf.1 best
        else
          -- Case 3 with curr marked left-maximal.
          let curr := { curr with leftMaximal := true }
          let best := if bestMatchLT best curr then curr else best
          extendQueueLoop g aligner seq maxMismatches fuel qf.1 best
      else
        -- Case 3: Maximal extension with a better score than the best so far.
        let best := if bestMatchLT best curr then curr else best
        extendQueueLoop g aligner seq maxMismatches fuel queue best

/-- The per-seed body of `GaplessExtender::extend`: skip seeds contained in
an exact full-length alignment, match the initial node, run the queue loop,
and record the best match and the `best_alignment` index. -/
def processSeed (g : CachedGBWTGraphM) (aligner : Aligner) (seq : List Char)
    (maxMismatches fuel : Nat) (acc : List GaplessExtension × Nat)
    (seed : Seed) : List GaplessExtension × Nat :=
  let result := acc.1
  let bestAlignment := acc.2
  -- Check if the seed is contained in an exact full-length alignment.
  if bestAlignment < result.length ∧
      (result.getD bestAlignment sentinelExtension).internalScore = 0 ∧
      (result.getD bestAlignment sentinelExtension).contains g seed then
    acc
  else
    -- Match the initial node and add it to the queue.
    let m0 : GaplessExtension :=
      { path := [seed.handle]
        offset := seed.nodeOffset
        state := g.getBdState seed.handle
        readInterval := (seed.readOffset, seed.readOffset)
        mismatchPositions := []
        score := 0
        leftFull := false
        rightFull := false
        leftMaximal := false
        rightMaximal := false
        internalScore := 0
        oldScore := 0 }
    let m0 := match_initial m0 seq (g.sequenceView seed.handle)
    let m0 := if m0.readInterval.1 = 0 then
        { m0 with leftFull := true, leftMaximal := true }
      else m0
    let m0 := if m0.readInterval.2 ≥ seq.length then
        { m0 with rightFull := true, rightMaximal := true }
      else m0
    let m0 := set_score m0 aligner
    let best := extendQueueLoop g aligner seq maxMismatches fuel [m0] sentinelExtension
    -- Add the best match to the result and update the best_alignment offset.
    if !best.isEmpty then
      let bestAlignment :=
        if best.full ∧ (bestAlignment ≥ result.length ∨
            best.internalScore < (result.getD bestAlignment sentinelExtension).internalScore) then
          result.length
        else bestAlignment
      (result ++ [best], bestAlignment)
    else acc

/-- Modelled from the spec: `GaplessExtension::operator!=` (declared in
gbwt_extender.hpp, not under src/); §3 of the spec: two extensions are equal
iff they have identical `read_interval`, search state and `offset`. -/
def extensionEq (a b : GaplessExtension) : Bool :=
  a.readInterval == b.readInterval && a.state == b.state && a.offset == b.offset

/-- The encoded gbwt node value (`gbwt::node_type` packs `2 * id + rev`),
used by the sort order of `remove_duplicates`. -/
def GNode.encode (n : GNode) : Nat := 2 * n.id + (if n.rev then 1 else 0)

/-- Lexicographic order on pairs (`std::pair::operator<`). -/
def pairLT (a b : Nat × Nat) : Bool :=
  a.1 < b.1 || (a.1 == b.1 && a.2 < b.2)

/-- The strict sort order of `remove_duplicates`: by read interval, then the
backward and forward states, then the offset. -/
def removeDupLT (a b : GaplessExtension) : Bool :=
  if a.readInterval ≠ b.readInterval then pairLT a.readInterval b.readInterval
  else if a.state.backward.node ≠ b.state.backward.node then
    a.state.backward.node.encode < b.state.backward.node.encode
  else if a.state.forward.node ≠ b.state.forward.node then
    a.state.forward.node.encode < b.state.forward.node.encode
  else if a.state.backward.range ≠ b.state.backward.range then
    pairLT a.state.backward.range b.state.backward.range
  else if a.state.forward.range ≠ b.state.forward.range then
    pairLT a.state.forward.range b.state.forward.range
  else a.offset < b.offset

/-- The total preorder companion of `removeDupLT` (`le a b ↔ ¬ lt b a`)
used for merge sort. -/
def removeDupLE (a b : GaplessExtension) : Bool := !(removeDupLT b a)

/-- The deduplication loop of `remove_duplicates`: drop empty extensions and
adjacent duplicates of the sorted vector. -/
def removeDupKeep : List GaplessExtension → List GaplessExtension →
    List GaplessExtension
  | [], kept => kept
  | x :: rest, kept =>
    if x.isEmpty then removeDupKeep rest kept
    else
      match kept.getLast? with
      | some prev =>
        if extensionEq x prev then removeDupKeep rest kept
        else removeDupKeep rest (kept ++ [x])
      | none => removeDupKeep rest (kept ++ [x])

/-- `remove_duplicates` (gbwt_extender.cpp): sort the extensions left to
right and remove duplicates and empty extensions. -/
def remove_duplicates (result : List GaplessExtension) : List GaplessExtension :=
  removeDupKeep (sortByLE removeDupLE result) []

/-- The per-node scan of `find_mismatches`: compare node characters with the
read inside the read interval, collecting mismatching read offsets. -/
def scanNodeMismatches (target seq : List Char) (riSecond : Nat) :
    Nat → Nat → Nat → List Nat × Nat
  | 0, _, readOffset => ([], readOffset)
  | fuel + 1, nodeOffset, readOffset =>
    if nodeOffset < target.length ∧ readOffset < riSecond then
      let ms := if target.getD nodeOffset 'X' ≠ seq.getD readOffset 'X' then
          [readOffset]
        else []
      let rest := scanNodeMismatches target seq riSecond fuel (nodeOffset + 1) (readOffset + 1)
      (ms ++ rest.1, rest.2)
    else ([], readOffset)

/-- The path walk of `find_mismatches` for one extension. -/
def findMismatchesGo (g : CachedGBWTGraphM) (seq : List Char) (riSecond : Nat) :
    List GNode → Nat → Nat → List Nat
  | [], _, _ => []
  | h :: rest, nodeOffset, readOffset =>
    let s := scanNodeMismatches (g.sequenceView h) seq riSecond
      ((g.sequenceView h).length + 1) nodeOffset readOffset
    s.1 ++ findMismatchesGo g seq riSecond rest 0 s.2

/-- `find_mismatches` (gbwt_extender.cpp): realign the extensions to find
the mismatching read positions (skipping extensions with no mismatches). -/
def find_mismatches (seq : List Char) (g : CachedGBWTGraphM)
    (result : List GaplessExtension) : List GaplessExtension :=
  result.map (fun e =>
    if e.internalScore = 0 then e
    else { e with mismatchPositions :=
      findMismatchesGo g seq e.readInterval.2 e.path e.offset e.readInterval.1 })

/-- The body of `GaplessExtender::extend` after input validation and
masking: process every seed, then either return the best sufficiently
distinct full-length alignments, or deduplicate, annotate and trim the
maximal extensions. -/
def extendCore (graph : CachedGBWTGraphM) (aligner : Aligner) (seq : List Char)
    (cluster : List Seed) (maxMismatches : Nat) (overlapThreshold : ℚ)
    (fuel : Nat) : List GaplessExtension :=
  let acc := cluster.foldl (processSeed graph aligner seq maxMismatches fuel)
    ([], sizeTMax)
  let result := acc.1
  let bestAlignment := acc.2
  if bestAlignment < result.length ∧
      (result.getD bestAlignment sentinelExtension).internalScore ≤ maxMismatches then
    -- Return the best sufficiently distinct full-length alignments.
    find_mismatches seq graph (handle_full_length graph.getLength result overlapThreshold)
  else
    -- Remove duplicates, find mismatches, and trim to maximize the score.
    let result := remove_duplicates result
    let result := find_mismatches seq graph result
    let pr := result.foldl (fun (acc : List GaplessExtension × Bool) e =>
        let tb := trim_mismatches e graph aligner
        (acc.1 ++ [tb.1], acc.2 || tb.2)) ([], false)
    if pr.2 then remove_duplicates pr.1 else pr.1

/-- `GaplessExtender::extend(cluster, sequence, cache, max_mismatches,
overlap_threshold)`.  The optional cache argument of the source only
memoizes graph accesses and is not modelled separately. -/
def GaplessExtender.extend (self : GaplessExtender) (cluster : List Seed)
    (sequence : List Char) (maxMismatches : Nat) (overlapThreshold : ℚ)
    (fuel : Nat) : List GaplessExtension :=
  match self.graph, self.aligner with
  | some graph, some aligner =>
    if cluster.isEmpty || sequence.isEmpty then []
    else extendCore graph aligner (readMask sequence) cluster maxMismatches
      overlapThreshold fuel
  | _, _ => []

/-!  Concrete instances used by counterexample and witness theorems. -/

/-- The default scoring parameters of the `Aligner` (match 1, mismatch 4,
gap open 6, gap extension 1, full-length bonus 5). -/
def testAligner : Aligner := ⟨1, 4, 6, 1, 5⟩

/-- A zero-mismatch full-length extension over a read of length 10. -/
def c2ext : GaplessExtension :=
  { path := [⟨1, false⟩]
    offset := 0
    state := emptyBDState
    readInterval := (0, 10)
    mismatchPositions := []
    score := 0
    leftFull := true
    rightFull := true
    leftMaximal := true
    rightMaximal := true
    internalScore := 0
    oldScore := 0 }

/-- An extension with one mismatch (read interval [0, 2), mismatch at 1). -/
def c4ext : GaplessExtension :=
  { path := [⟨1, false⟩]
    offset := 0
    state := emptyBDState
    readInterval := (0, 2)
    mismatchPositions := [1]
    score := 0
    leftFull := false
    rightFull := false
    leftMaximal := true
    rightMaximal := true
    internalScore := 1
    oldScore := 1 }

/-- A small aligner making the WFA score bound cheap to evaluate. -/
def c1aligner : Aligner := ⟨1, 1, 1, 1, 0⟩

/-- A one-node graph: node 1 (forward) has sequence "AAAA" and one
supporting haplotype; no haplotype continues past it. -/
def c1graph : GBWTGraphM :=
  { getLength := fun _ => 4
    sequenceView := fun _ => ['A', 'A', 'A', 'A']
    getState := fun n => if n.id = 1 then ⟨n, (0, 0)⟩ else ⟨n, (1, 0)⟩
    followPaths := fun _ => [] }

/-- A `WFAExtender` over `c1graph`. -/
def c1extender : WFAExtender := ⟨some c1graph, some c1aligner⟩

/-- A trivial cached graph oracle (for guard witnesses). -/
def trivialCached : CachedGBWTGraphM :=
  ⟨fun _ => 0, fun _ => [], fun _ => emptyBDState, fun _ _ => [], fun _ => emptyBDState⟩

/-- A full-length extension over node 1 covering read [0, 10) with no
mismatches. -/
def c3extA : GaplessExtension :=
  { c2ext with state := ⟨⟨⟨1, false⟩, (0, 0)⟩, ⟨⟨1, false⟩, (0, 0)⟩⟩ }

/-- The same span as `c3extA` with one mismatch: overlaps it completely. -/
def c3extB : GaplessExtension := { c3extA with internalScore := 1 }

/-- Node lengths for the C3 witness graph. -/
def c3g : GNode → Nat := fun _ => 10

/-- The default overlap threshold 0.8 as the exact rational 4/5 (given in
reduced form so that its numerator and denominator are kernel-computable). -/
def c3thr : ℚ := ⟨4, 5, by decide, by decide⟩

/-- The C1 instance: the tree of `connect` for read "A" from position
(1, +, 0), as the source builds it (root wavefronts never seeded). -/
def c1tree : WFATree :=
  connectTree c1graph c1aligner (readMask ['A']) (c1graph.getState ⟨1, false⟩)
    ⟨1, false, 1⟩ 100

/-- The C1 instance with the missing initialization restored: the same tree
construction but with the root's match wavefront seeded at (score 0,
diagonal 0, sequence offset 0, node offset `offset(from) + 1`), which is
the start state the WFA recurrences of `extend` / `next` require. -/
def c1seededConnect : WFAAlignment :=
  let seq := readMask ['A']
  let t0 := WFATree.make seq (c1graph.getState ⟨1, false⟩) c1aligner
  let t0 := t0.setNode 0 ((t0.getNode 0).update WFType.matches 0 0 0 1)
  connectFinish c1graph c1aligner seq ⟨1, false, 0⟩ ⟨1, false, 1⟩ 100
    (wfaLoop c1graph seq ⟨1, false, 1⟩ 100 (t0.scoreBound.toNat + 2) 0 t0)

/-- An aligner (match 1, mismatch 2, gap open 6, gap extension 1, bonus 5)
under which the C6 witness extension gets trimmed on the first pass. -/
def c6al : Aligner := ⟨1, 2, 6, 1, 5⟩

/-- A cached graph whose single node has length 10 (for the path-trimming
part of `trim_mismatches`). -/
def c6graph : CachedGBWTGraphM :=
  ⟨fun _ => 10, fun _ => [], fun _ => emptyBDState, fun _ _ => [], fun _ => emptyBDState⟩

/-- An extension covering read [0, 10) with mismatches at 1 and 5: under
`c6al` the first `trim_mismatches` call trims it to [2, 10) (keeping the
mismatch at 5), and the second call leaves that result unchanged. -/
def c6ext : GaplessExtension :=
  { path := [⟨1, false⟩]
    offset := 0
    state := emptyBDState
    readInterval := (0, 10)
    mismatchPositions := [1, 5]
    score := 0
    leftFull := false
    rightFull := false
    leftMaximal := true
    rightMaximal := true
    internalScore := 2
    oldScore := 2 }

/-- The trajectory of current-interval states of the scan loop of
`trim_mismatches`: the list of post-step (interval, score) pairs. -/
def trimCurs (aligner : Aligner) :
    (Nat × Nat) × Int → List (Nat × Nat × Bool) → List ((Nat × Nat) × Int)
  | _, [] => []
  | cst, s :: rest =>
    trimStepCur aligner cst s :: trimCurs aligner (trimStepCur aligner cst s) rest

/-- `trimSteps` with an explicit final run target (used to split a scan into
segments): like `trimSteps` but the final run of the segment extends to `t`
without a bonus. -/
def trimStepsSeg (t : Nat) : List Nat → List (Nat × Nat × Bool)
  | [] => []
  | [m] => [(m, t, false)]
  | m :: m' :: rest => (m, m', false) :: trimStepsSeg t (m' :: rest)

/-- Folding the best-interval update of the scan loop of `trim_mismatches`
over a list of considered (interval, score) states. -/
def trimBestFold (b : (Nat × Nat) × Int) (cs : List ((Nat × Nat) × Int)) :
    (Nat × Nat) × Int :=
  cs.foldl (fun acc c => trimUpdateBest c acc) b

/-!  Theorems. -/

/-- Claim C2: for every `GaplessExtension`, the score computed by the engine
(`set_score`) equals `match_score × interval_length − internal_score ×
(match_score + mismatch_penalty) + full_length_bonus × (left_full +
right_full)`; consequently, a zero-mismatch extension spanning the whole
read scores `match_score × read_length + 2 × full_length_bonus`. -/
theorem claim_C2_set_score_formula (extension : GaplessExtension) (aligner : Aligner) :
    (set_score extension aligner).score =
      aligner.matchScore * (interval_length extension.readInterval : Int)
        - (extension.internalScore : Int) * (aligner.matchScore + aligner.mismatch)
        + aligner.fullLengthBonus *
            ((if extension.leftFull then 1 else 0) + (if extension.rightFull then 1 else 0)) ∧
    (extension.internalScore = 0 → extension.leftFull = true → extension.rightFull = true →
      extension.readInterval.1 = 0 →
      (set_score extension aligner).score =
        aligner.matchScore * (extension.readInterval.2 : Int) + 2 * aligner.fullLengthBonus) := by
  constructor
  · cases hl : extension.leftFull <;> cases hr : extension.rightFull <;>
      simp [set_score, interval_length, hl, hr] <;> ring
  · intro h0 hl hr hfst
    simp [set_score, hl, hr, h0, hfst]
    ring

/-- Witness for C2: a zero-mismatch full-length extension over a read of
length 10 scores `1 × 10 + 2 × 5`. -/
theorem claim_C2_set_score_formula_witness :
    (set_score c2ext testAligner).score =
      testAligner.matchScore * ((c2ext.readInterval.2 : Nat) : Int)
        + 2 * testAligner.fullLengthBonus :=
  (claim_C2_set_score_formula c2ext testAligner).2 rfl rfl rfl rfl

/-- Claim C4 (refuted): converting a `GaplessExtension` with one mismatch to
a `WFAAlignment` produces the edit script `[match 1, mismatch 1, match 1]`,
whose lengths sum to 3, while the alignment's `length` field is 2 — the
constructor advances `edits_made_up_to` only to `mismatch_at` instead of
past the mismatch, so every mismatch position is also covered by the
following match run, contradicting the invariant that the edit lengths sum
to `length`. -/
theorem claim_C4_ofGapless_bug :
    (WFAAlignment.ofGapless c4ext).edits =
        [(WFAEdit.matchE, 1), (WFAEdit.mismatchE, 1), (WFAEdit.matchE, 1)] ∧
    (WFAAlignment.ofGapless c4ext).editLengthSum = 3 ∧
    (WFAAlignment.ofGapless c4ext).length = 2 ∧
    (WFAAlignment.ofGapless c4ext).deletionSum = 0 ∧
    (WFAAlignment.ofGapless c4ext).insertionSum = 0 := by
  refine ⟨rfl, rfl, rfl, rfl, rfl⟩

/-- Claim C9: the WFA penalties derived by the `WFATree` constructor (the
constructor through which `connectTree`, and hence `connect`, builds its
tree for every aligner configuration) are `mismatch' = 2 × (match +
mismatch)`, `gap_open' = 2 × gap_open` and `gap_extend' = 2 × gap_extension
+ match`. -/
theorem claim_C9_wfa_penalties (sequence : List Char) (root : SearchState)
    (aligner : Aligner) :
    (WFATree.make sequence root aligner).mismatch
        = 2 * (aligner.matchScore + aligner.mismatch) ∧
    (WFATree.make sequence root aligner).gapOpen = 2 * aligner.gapOpen ∧
    (WFATree.make sequence root aligner).gapExtend
        = 2 * aligner.gapExtension + aligner.matchScore :=
  ⟨rfl, rfl, rfl⟩

set_option maxRecDepth 8192 in
/-- The mask table built from "ACGT" maps the codes of 'A', 'C', 'G', 'T'
to themselves and every other byte to 'X'. -/
theorem acgtMask_getD : ∀ n, n < 256 → acgtMask.getD n 'X' =
    (if n = 65 then 'A' else if n = 67 then 'C' else if n = 71 then 'G'
     else if n = 84 then 'T' else 'X') := by decide

/-- Claim C10: both `extend` and `connect` rewrite their copy of the read
with the "ACGT" masker before any matching; the masker turns every
character outside {A, C, G, T} (lowercase bases, 'N', ...) into 'X', which
equals no graph base (the graph alphabet being the nucleotides
A, C, G, T, N), so such read positions can only score as mismatches. -/
theorem claim_C10_read_masking :
    (∀ c : Char, c.toNat < 256 → c ∉ (['A', 'C', 'G', 'T'] : List Char) →
      ReadMasker.apply acgtMask c = 'X') ∧
    (∀ b ∈ (['A', 'C', 'G', 'T', 'N'] : List Char), ∀ c : Char, c.toNat < 256 →
      c ∉ (['A', 'C', 'G', 'T'] : List Char) → ReadMasker.apply acgtMask c ≠ b) ∧
    (∀ (self : GaplessExtender) graph aligner cluster sequence mm thr fuel,
      self.graph = some graph → self.aligner = some aligner →
      cluster ≠ [] → sequence ≠ [] →
      self.extend cluster sequence mm thr fuel =
        extendCore graph aligner (readMask sequence) cluster mm thr fuel) ∧
    (∀ (self : WFAExtender) graph aligner sequence from' toPos fuel,
      self.graph = some graph → self.aligner = some aligner → sequence ≠ [] →
      (graph.getState ⟨from'.id, from'.rev⟩).isEmpty = false →
      self.connect sequence from' toPos fuel =
        connectCore graph aligner (readMask sequence)
          (graph.getState ⟨from'.id, from'.rev⟩) from' toPos fuel) := by
  have hmask : ∀ c : Char, c.toNat < 256 → c ∉ (['A', 'C', 'G', 'T'] : List Char) →
      ReadMasker.apply acgtMask c = 'X' := by
    intro c hc hmem
    have h := acgtMask_getD c.toNat hc
    have hA : c.toNat ≠ 65 := fun he => hmem (by
      have : c = 'A' := by
        have := Char.ofNat_toNat c
        rw [he] at this
        exact this.symm
      simp [this])
    have hC : c.toNat ≠ 67 := fun he => hmem (by
      have : c = 'C' := by
        have := Char.ofNat_toNat c
        rw [he] at this
        exact this.symm
      simp [this])
    have hG : c.toNat ≠ 71 := fun he => hmem (by
      have : c = 'G' := by
        have := Char.ofNat_toNat c
        rw [he] at this
        exact this.symm
      simp [this])
    have hT : c.toNat ≠ 84 := fun he => hmem (by
      have : c = 'T' := by
        have := Char.ofNat_toNat c
        rw [he] at this
        exact this.symm
      simp [this])
    simp only [ReadMasker.apply, h, hA, hC, hG, hT, if_false]
  refine ⟨hmask, ?_, ?_, ?_⟩
  · intro b hb c hc hmem
    rw [hmask c hc hmem]
    fin_cases hb <;> decide
  · intro self graph aligner cluster sequence mm thr fuel hg ha hc hs
    simp [GaplessExtender.extend, hg, ha, hc, hs]
  · intro self graph aligner sequence from' toPos fuel hg ha hs hroot
    simp [WFAExtender.connect, hg, ha, hs, hroot]

/-- Witness for C10: masking turns 'N' into 'X' (≠ 'A'), and both engines
run their cores on the masked read for a concrete valid input. -/
theorem claim_C10_read_masking_witness :
    ReadMasker.apply acgtMask 'N' = 'X' ∧
    ReadMasker.apply acgtMask 'N' ≠ 'A' ∧
    (GaplessExtender.mk (some trivialCached) (some testAligner)).extend
        [⟨⟨1, false⟩, 0, 0⟩] ['N'] 4 (4 / 5) 10 =
      extendCore trivialCached testAligner (readMask ['N']) [⟨⟨1, false⟩, 0, 0⟩] 4 (4 / 5) 10 ∧
    (WFAExtender.mk (some c1graph) (some c1aligner)).connect ['N'] ⟨1, false, 0⟩ ⟨0, false, 0⟩ 10 =
      connectCore c1graph c1aligner (readMask ['N'])
        (c1graph.getState ⟨1, false⟩) ⟨1, false, 0⟩ ⟨0, false, 0⟩ 10 :=
  ⟨claim_C10_read_masking.1 'N' (by decide) (by decide),
   claim_C10_read_masking.2.1 'A' (by decide) 'N' (by decide) (by decide),
   claim_C10_read_masking.2.2.1 _ trivialCached testAligner _ _ 4 (4 / 5) 10 rfl rfl
     (by decide) (by decide),
   claim_C10_read_masking.2.2.2 _ c1graph c1aligner _ ⟨1, false, 0⟩ ⟨0, false, 0⟩ 10 rfl rfl
     (by decide) (by decide)⟩

/-- Claim C7: invalid inputs — a null graph or aligner, an empty seed set or
an empty read for `extend`; a null graph or aligner, an empty sequence, or a
start position with no haplotype support for `connect` — make the operation
return an empty result immediately. -/
theorem claim_C7_invalid_inputs :
    (∀ (self : GaplessExtender) cluster sequence mm thr fuel,
      (self.graph = none ∨ self.aligner = none ∨ cluster = [] ∨ sequence = []) →
      self.extend cluster sequence mm thr fuel = []) ∧
    (∀ (self : WFAExtender) sequence from' toPos fuel,
      (self.graph = none ∨ self.aligner = none ∨ sequence = []) →
      self.connect sequence from' toPos fuel = WFAAlignment.mkEmpty) ∧
    (∀ (self : WFAExtender) graph sequence from' toPos fuel,
      self.graph = some graph →
      (graph.getState ⟨from'.id, from'.rev⟩).isEmpty = true →
      self.connect sequence from' toPos fuel = WFAAlignment.mkEmpty) := by
  refine ⟨?_, ?_, ?_⟩
  · intro self cluster sequence mm thr fuel h
    rcases self with ⟨g, a⟩
    rcases h with h | h | h | h <;>
      cases g <;> cases a <;>
        simp_all [GaplessExtender.extend]
  · intro self sequence from' toPos fuel h
    rcases self with ⟨g, a⟩
    rcases h with h | h | h <;>
      cases g <;> cases a <;>
        simp_all [WFAExtender.connect]
  · intro self graph sequence from' toPos fuel hg hroot
    rcases self with ⟨g, a⟩
    cases a with
    | none => simp [WFAExtender.connect]
    | some aligner =>
      simp only at hg
      subst hg
      by_cases hs : sequence = []
      · simp [WFAExtender.connect, hs]
      · simp [WFAExtender.connect, hs, hroot]

/-- Witness for C7: a null-graph extender returns no extensions; a
null-graph WFA extender and a start position without haplotype support both
yield the empty alignment. -/
theorem claim_C7_invalid_inputs_witness :
    (GaplessExtender.mk none none).extend [⟨⟨1, false⟩, 0, 0⟩] ['A'] 4 (4 / 5) 10 = [] ∧
    (WFAExtender.mk none none).connect ['A'] ⟨1, false, 0⟩ ⟨0, false, 0⟩ 10 =
      WFAAlignment.mkEmpty ∧
    (WFAExtender.mk (some c1graph) (some c1aligner)).connect ['A'] ⟨2, false, 0⟩ ⟨0, false, 0⟩ 10 =
      WFAAlignment.mkEmpty :=
  ⟨claim_C7_invalid_inputs.1 _ _ _ 4 (4 / 5) 10 (Or.inl rfl),
   claim_C7_invalid_inputs.2.1 _ _ ⟨1, false, 0⟩ ⟨0, false, 0⟩ 10 (Or.inl rfl),
   claim_C7_invalid_inputs.2.2 _ c1graph _ ⟨2, false, 0⟩ ⟨0, false, 0⟩ 10 rfl (by decide)⟩

/-- The per-character loop of `match_forward` keeps the mismatch count
strictly below the limit: a new mismatch is admitted only when the count
plus one is still below it. -/
theorem matchForwardChars_bound (seq target : List Char) (limit : Nat) :
    ∀ len r n i, i < limit →
      (matchForwardChars seq target limit len r n i).2.2.2 < limit := by
  intro len
  induction len with
  | zero => intro r n i h; simpa [matchForwardChars] using h
  | succ k ih =>
    intro r n i h
    rw [matchForwardChars]
    split
    · split
      · simpa using h
      · exact ih (r + 1) (n + 1) (i + 1) (by omega)
    · exact ih (r + 1) (n + 1) i h

/-- The chunked loop of `match_forward` keeps the mismatch count strictly
below the limit. -/
theorem matchForwardGo_bound (seq target : List Char) (limit : Nat) :
    ∀ fuel left r n i, i < limit →
      (matchForwardGo seq target limit fuel left r n i).2.2 < limit := by
  intro fuel
  induction fuel with
  | zero => intro left r n i h; simpa [matchForwardGo] using h
  | succ k ih =>
    intro left r n i h
    rw [matchForwardGo]
    split
    · simpa using h
    · dsimp only
      split
      · exact ih _ _ _ _ h
      · have hc := matchForwardChars_bound seq target limit (min left 8) r n i h
        rcases hmc : matchForwardChars seq target limit (min left 8) r n i with
          ⟨stopped, r', n', i'⟩
        rw [hmc] at hc
        cases stopped
        · simp only [hmc]
          exact ih _ _ _ _ hc
        · simpa [hmc] using hc

/-- The per-character loop of `match_backward` keeps the mismatch count
strictly below the limit. -/
theorem matchBackwardChars_bound (seq target : List Char) (limit : Nat) :
    ∀ len rf off i, i < limit →
      (matchBackwardChars seq target limit len rf off i).2.2.2 < limit := by
  intro len
  induction len with
  | zero => intro rf off i h; simpa [matchBackwardChars] using h
  | succ k ih =>
    intro rf off i h
    rw [matchBackwardChars]
    split
    · split
      · simpa using h
      · exact ih (rf - 1) (off - 1) (i + 1) (by omega)
    · exact ih (rf - 1) (off - 1) i h

/-- The chunked loop of `match_backward` keeps the mismatch count strictly
below the limit. -/
theorem matchBackwardGo_bound (seq target : List Char) (limit : Nat) :
    ∀ fuel left rf off i, i < limit →
      (matchBackwardGo seq target limit fuel left rf off i).2.2 < limit := by
  intro fuel
  induction fuel with
  | zero => intro left rf off i h; simpa [matchBackwardGo] using h
  | succ k ih =>
    intro left rf off i h
    rw [matchBackwardGo]
    split
    · simpa using h
    · dsimp only
      split
      · exact ih _ _ _ _ h
      · have hc := matchBackwardChars_bound seq target limit (min left 8) rf off i h
        rcases hmc : matchBackwardChars seq target limit (min left 8) rf off i with
          ⟨stopped, rf', off', i'⟩
        rw [hmc] at hc
        cases stopped
        · simp only [hmc]
          exact ih _ _ _ _ hc
        · simpa [hmc] using hc

/-- Claim C5: both extension directions of `extend` admit new mismatches
only while the running mismatch count stays strictly below
`max(max_mismatches + 1, max_mismatches / 2 + old_score + 1)` (the
`mismatch_limit` both cases of the queue loop compute), so the resulting
count stays strictly below the ceiling; and the ceiling always leaves at
least half the total budget spendable past the last maximal boundary
(`old_score + max_mismatches / 2 < ceiling`), and always admits the full
budget (`max_mismatches < ceiling`). -/
theorem claim_C5_mismatch_ceiling (m : GaplessExtension) (seq target : List Char)
    (maxMismatches : Nat)
    (h : m.internalScore < mismatch_limit maxMismatches m.oldScore) :
    mismatch_limit maxMismatches m.oldScore =
        max (maxMismatches + 1) (maxMismatches / 2 + m.oldScore + 1) ∧
    (match_forward m seq target (mismatch_limit maxMismatches m.oldScore)).1.internalScore
        < mismatch_limit maxMismatches m.oldScore ∧
    (match_backward m seq target (mismatch_limit maxMismatches m.oldScore)).internalScore
        < mismatch_limit maxMismatches m.oldScore ∧
    m.oldScore + maxMismatches / 2 < mismatch_limit maxMismatches m.oldScore ∧
    maxMismatches < mismatch_limit maxMismatches m.oldScore := by
  refine ⟨rfl, ?_, ?_, ?_, ?_⟩
  · exact matchForwardGo_bound seq target _ _ _ _ _ _ h
  · exact matchBackwardGo_bound seq target _ _ _ _ _ _ h
  · simp only [mismatch_limit]
    omega
  · simp only [mismatch_limit]
    omega

/-- Witness for C5 at a concrete extension (mismatch count 0, old score 0,
budget 4; the ceiling is 5). -/
theorem claim_C5_mismatch_ceiling_witness :
    mismatch_limit 4 c2ext.oldScore = max (4 + 1) (4 / 2 + c2ext.oldScore + 1) ∧
    (match_forward c2ext ['A', 'C'] ['C', 'C'] (mismatch_limit 4 c2ext.oldScore)).1.internalScore
        < mismatch_limit 4 c2ext.oldScore ∧
    (match_backward c2ext ['A', 'C'] ['C', 'C'] (mismatch_limit 4 c2ext.oldScore)).internalScore
        < mismatch_limit 4 c2ext.oldScore ∧
    c2ext.oldScore + 4 / 2 < mismatch_limit 4 c2ext.oldScore ∧
    4 < mismatch_limit 4 c2ext.oldScore :=
  claim_C5_mismatch_ceiling c2ext ['A', 'C'] ['C', 'C'] 4 (by decide)

/-- `fullLengthLE` is transitive. -/
theorem fullLengthLE_trans : ∀ a b c : GaplessExtension,
    fullLengthLE a b = true → fullLengthLE b c = true → fullLengthLE a c = true := by
  intro a b c
  simp only [fullLengthLE]
  cases ha : a.full <;> cases hb : b.full <;> cases hc : c.full <;> simp <;> omega

/-- `fullLengthLE` is total. -/
theorem fullLengthLE_total : ∀ a b : GaplessExtension,
    (fullLengthLE a b || fullLengthLE b a) = true := by
  intro a b
  simp only [fullLengthLE]
  cases ha : a.full <;> cases hb : b.full <;> simp <;> omega

/-- The cross-multiplied overlap comparison agrees with the rational one. -/
theorem overlapExceeds_iff (o : Nat) (q : ℚ) (l : Nat) :
    overlapExceeds o q l = true ↔ (o : ℚ) > q * (l : ℚ) := by
  have hden : (0 : ℚ) < (q.den : ℚ) := by exact_mod_cast q.pos
  simp only [overlapExceeds, gt_iff_lt, decide_eq_true_eq]
  constructor
  · intro h
    rw [← Rat.num_div_den q, div_mul_eq_mul_div, div_lt_iff₀ hden]
    exact_mod_cast h
  · intro h
    rw [← Rat.num_div_den q, div_mul_eq_mul_div, div_lt_iff₀ hden] at h
    exact_mod_cast h

/-- Membership in `insertSorted`. -/
theorem mem_insertSorted (le : α → α → Bool) (x : α) :
    ∀ l (a : α), a ∈ insertSorted le x l ↔ a = x ∨ a ∈ l := by
  intro l
  induction l with
  | nil => intro a; simp [insertSorted]
  | cons y ys ih =>
    intro a
    rw [insertSorted]
    split
    · simp
    · simp only [List.mem_cons, ih]
      tauto

/-- `insertSorted` preserves sortedness under a transitive total preorder. -/
theorem pairwise_insertSorted (le : α → α → Bool)
    (htrans : ∀ a b c, le a b = true → le b c = true → le a c = true)
    (htotal : ∀ a b, (le a b || le b a) = true) (x : α) :
    ∀ l, l.Pairwise (fun a b => le a b = true) →
      (insertSorted le x l).Pairwise (fun a b => le a b = true) := by
  intro l
  induction l with
  | nil => intro _; simp [insertSorted]
  | cons y ys ih =>
    intro hp
    rcases List.pairwise_cons.mp hp with ⟨hy, hys⟩
    rw [insertSorted]
    split
    · next hxy =>
      refine List.pairwise_cons.mpr ⟨?_, hp⟩
      intro b hb
      rcases List.mem_cons.mp hb with rfl | hb
      · exact hxy
      · exact htrans x y b hxy (hy b hb)
    · next hxy =>
      have hyx : le y x = true := by
        have := htotal x y
        simp only [Bool.or_eq_true] at this
        rcases this with h | h
        · exact absurd h hxy
        · exact h
      refine List.pairwise_cons.mpr ⟨?_, ih hys⟩
      intro b hb
      rcases (mem_insertSorted le x ys b).mp hb with rfl | hb
      · exact hyx
      · exact hy b hb

/-- `sortByLE` sorts under a transitive total preorder. -/
theorem pairwise_sortByLE (le : α → α → Bool)
    (htrans : ∀ a b c, le a b = true → le b c = true → le a c = true)
    (htotal : ∀ a b, (le a b || le b a) = true) :
    ∀ l : List α, (sortByLE le l).Pairwise (fun a b => le a b = true) := by
  intro l
  induction l with
  | nil => simp [sortByLE]
  | cons x xs ih =>
    rw [sortByLE]
    exact pairwise_insertSorted le htrans htotal x _ ih

/-- Membership in `sortByLE`. -/
theorem mem_sortByLE (le : α → α → Bool) :
    ∀ (l : List α) (a : α), a ∈ sortByLE le l ↔ a ∈ l := by
  intro l
  induction l with
  | nil => intro a; simp [sortByLE]
  | cons x xs ih =>
    intro a
    rw [sortByLE, mem_insertSorted]
    simp [ih]

/-- The greedy selection loop never drops previously kept candidates. -/
theorem handleFullLengthKeep_subset (g : GNode → Nat) (thr : ℚ) :
    ∀ ms kept, ∀ e ∈ kept, e ∈ handleFullLengthKeep g thr ms kept := by
  intro ms
  induction ms with
  | nil => intro kept e he; simpa [handleFullLengthKeep] using he
  | cons x rest ih =>
    intro kept e he
    rw [handleFullLengthKeep]
    split
    · exact he
    · split
      · exact ih kept e he
      · exact ih (kept ++ [x]) e (by simp [he])

/-- Invariant-passing specification of the greedy selection loop of
`handle_full_length`: starting from a kept list that is full-length, sorted
by `internal_score` and pairwise overlap-bounded, and a candidate list
sorted under `fullLengthLE` whose full members score at least as much as
everything kept, the loop returns a full-length, `internal_score`-sorted,
pairwise overlap-bounded list, and every discarded full candidate overlaps
some kept one beyond the threshold. -/
theorem handleFullLengthKeep_spec (g : GNode → Nat) (thr : ℚ) :
    ∀ ms kept,
      (∀ k ∈ kept, k.full = true) →
      kept.Pairwise (fun a b => a.internalScore ≤ b.internalScore) →
      kept.Pairwise (fun prev x => (x.overlap g prev : ℚ) ≤ thr * (prev.length : ℚ)) →
      (∀ k ∈ kept, ∀ m ∈ ms, m.full = true → k.internalScore ≤ m.internalScore) →
      ms.Pairwise (fun a b => fullLengthLE a b = true) →
      ((∀ e ∈ handleFullLengthKeep g thr ms kept, e.full = true) ∧
       (handleFullLengthKeep g thr ms kept).Pairwise
         (fun a b => a.internalScore ≤ b.internalScore) ∧
       (handleFullLengthKeep g thr ms kept).Pairwise
         (fun prev x => (x.overlap g prev : ℚ) ≤ thr * (prev.length : ℚ)) ∧
       (∀ x ∈ ms, x.full = true → x ∉ handleFullLengthKeep g thr ms kept →
         ∃ prev ∈ handleFullLengthKeep g thr ms kept,
           (x.overlap g prev : ℚ) > thr * (prev.length : ℚ))) := by
  intro ms
  induction ms with
  | nil =>
    intro kept hks hkp hko _ _
    rw [handleFullLengthKeep]
    exact ⟨hks, hkp, hko, by simp⟩
  | cons x rest ih =>
    intro kept hks hkp hko hkm hsorted
    rw [handleFullLengthKeep]
    rcases List.pairwise_cons.mp hsorted with ⟨hxrest, hrest⟩
    split
    · next hxfull =>
      -- Break: the head is not full; under the sort order nothing full follows.
      have hxf : x.full = false := by simpa using hxfull
      refine ⟨hks, hkp, hko, ?_⟩
      intro y hy hyfull _
      exfalso
      rcases List.mem_cons.mp hy with rfl | hy
      · rw [hyfull] at hxf; cases hxf
      · have := hxrest y hy
        simp only [fullLengthLE, hxf, Bool.false_and, Bool.and_false] at this
        rw [hyfull] at this
        simp at this
    · next hxfull =>
      split
      · next hover =>
        -- Discard: x overlaps something kept beyond the threshold.
        have hIH := ih kept hks hkp hko
          (fun k hk m hm hmf => hkm k hk m (List.mem_cons_of_mem x hm) hmf) hrest
        refine ⟨hIH.1, hIH.2.1, hIH.2.2.1, ?_⟩
        intro y hy hyfull hynot
        rcases List.mem_cons.mp hy with rfl | hy
        · rcases List.any_eq_true.mp hover with ⟨prev, hprev, hpo⟩
          exact ⟨prev, handleFullLengthKeep_subset g thr rest kept prev hprev,
            (overlapExceeds_iff _ _ _).mp hpo⟩
        · exact hIH.2.2.2 y hy hyfull hynot
      · next hover =>
        -- Keep x.
        have hxf : x.full = true := by simpa using hxfull
        have hnover : ∀ prev ∈ kept, (x.overlap g prev : ℚ) ≤ thr * (prev.length : ℚ) := by
          intro prev hprev
          by_contra hgt
          exact hover (List.any_eq_true.mpr ⟨prev, hprev,
            (overlapExceeds_iff _ _ _).mpr (lt_of_not_le hgt)⟩)
        have hks' : ∀ k ∈ kept ++ [x], k.full = true := by
          intro k hk
          rcases List.mem_append.mp hk with hk | hk
          · exact hks k hk
          · simp at hk; subst hk; exact hxf
        have hkp' : (kept ++ [x]).Pairwise (fun a b => a.internalScore ≤ b.internalScore) := by
          rw [List.pairwise_append]
          refine ⟨hkp, by simp, ?_⟩
          intro k hk y hy
          simp at hy
          rw [hy]
          exact hkm k hk x (List.mem_cons_self x rest) hxf
        have hko' : (kept ++ [x]).Pairwise
            (fun prev y => (y.overlap g prev : ℚ) ≤ thr * (prev.length : ℚ)) := by
          rw [List.pairwise_append]
          refine ⟨hko, by simp, ?_⟩
          intro k hk y hy
          simp at hy
          rw [hy]
          exact hnover k hk
        have hkm' : ∀ k ∈ kept ++ [x], ∀ m ∈ rest, m.full = true →
            k.internalScore ≤ m.internalScore := by
          intro k hk m hm hmf
          rcases List.mem_append.mp hk with hk | hk
          · exact hkm k hk m (List.mem_cons_of_mem x hm) hmf
          · simp at hk; subst hk
            have := hxrest m hm
            simp only [fullLengthLE, hxf, hmf] at this
            simpa using this
        have hIH := ih (kept ++ [x]) hks' hkp' hko' hkm' hrest
        refine ⟨hIH.1, hIH.2.1, hIH.2.2.1, ?_⟩
        intro y hy hyfull hynot
        rcases List.mem_cons.mp hy with rfl | hy
        · exact absurd (handleFullLengthKeep_subset g thr rest (kept ++ [y]) y
            (by simp)) hynot
        · exact hIH.2.2.2 y hy hyfull hynot

/-- Claim C3: the full-length results kept by `handle_full_length` are all
full-length, ordered by `internal_score` ascending, and each kept
candidate's base overlap with every previously kept candidate `prev` is at
most `overlap_threshold × prev.length`; every full-length candidate
exceeding that overlap with some kept candidate is discarded. -/
theorem claim_C3_handle_full_length (g : GNode → Nat) (result : List GaplessExtension)
    (thr : ℚ) :
    (∀ e ∈ handle_full_length g result thr, e.full = true) ∧
    (handle_full_length g result thr).Pairwise
      (fun a b => a.internalScore ≤ b.internalScore) ∧
    (handle_full_length g result thr).Pairwise
      (fun prev x => (x.overlap g prev : ℚ) ≤ thr * (prev.length : ℚ)) ∧
    (∀ x ∈ result, x.full = true → x ∉ handle_full_length g result thr →
      ∃ prev ∈ handle_full_length g result thr,
        (x.overlap g prev : ℚ) > thr * (prev.length : ℚ)) := by
  have hsorted := pairwise_sortByLE fullLengthLE fullLengthLE_trans fullLengthLE_total result
  have h := handleFullLengthKeep_spec g thr (sortByLE fullLengthLE result) []
    (by simp) (by simp) (by simp) (by simp) hsorted
  refine ⟨h.1, h.2.1, h.2.2.1, ?_⟩
  intro x hx hxf hxnot
  exact h.2.2.2 x ((mem_sortByLE fullLengthLE result x).mpr hx) hxf hxnot

/-- Witness for C3: of two fully overlapping full-length candidates over the
same node, the one with more mismatches is discarded because its overlap
(10 bases) with the kept one exceeds 0.8 × 10. -/
theorem claim_C3_handle_full_length_witness :
    ∃ prev ∈ handle_full_length c3g [c3extA, c3extB] c3thr,
      ((c3extB.overlap c3g prev : ℚ)) > c3thr * (prev.length : ℚ) :=
  (claim_C3_handle_full_length c3g [c3extA, c3extB] c3thr).2.2.2 c3extB
    (by decide) (by decide) (by decide)

/-- The inner fold of `WFATree::trim` keeps the running best score equal to
the candidate's alignment score, never decreases it, bounds every scanned
point by it, and only ever replaces the candidate with a scanned point of
that node. -/
theorem trimPointStep_fold (aligner : Aligner) (node : Nat) :
    ∀ (pts : List WFAPoint) (st : WFAPoint × Nat × Int),
      st.2.2 = st.1.alignmentScore aligner →
      ((pts.foldl (trimPointStep aligner node) st).2.2 =
          (pts.foldl (trimPointStep aligner node) st).1.alignmentScore aligner ∧
        st.2.2 ≤ (pts.foldl (trimPointStep aligner node) st).2.2 ∧
        (∀ p ∈ pts, p.alignmentScore aligner ≤ (pts.foldl (trimPointStep aligner node) st).2.2) ∧
        (pts.foldl (trimPointStep aligner node) st = st ∨
          ((pts.foldl (trimPointStep aligner node) st).1 ∈ pts ∧
            (pts.foldl (trimPointStep aligner node) st).2.1 = node))) := by
  intro pts
  induction pts with
  | nil => intro st h; exact ⟨h, le_refl _, by simp, Or.inl rfl⟩
  | cons p rest ih =>
    intro st h
    simp only [List.foldl_cons]
    by_cases hp : p.alignmentScore aligner > st.2.2
    · have hstep : trimPointStep aligner node st p = (p, node, p.alignmentScore aligner) := by
        simp [trimPointStep, hp]
      rw [hstep]
      have hIH := ih (p, node, p.alignmentScore aligner) rfl
      refine ⟨hIH.1, le_trans (le_of_lt hp) hIH.2.1, ?_, ?_⟩
      · intro q hq
        rcases List.mem_cons.mp hq with rfl | hq
        · exact hIH.2.1
        · exact hIH.2.2.1 q hq
      · rcases hIH.2.2.2 with heq | hmem
        · rw [heq]; exact Or.inr ⟨List.mem_cons_self p rest, rfl⟩
        · exact Or.inr ⟨List.mem_cons_of_mem p hmem.1, hmem.2⟩
    · have hstep : trimPointStep aligner node st p = st := by
        simp [trimPointStep, hp]
      rw [hstep]
      have hIH := ih st h
      refine ⟨hIH.1, hIH.2.1, ?_, ?_⟩
      · intro q hq
        rcases List.mem_cons.mp hq with rfl | hq
        · exact le_trans (not_lt.mp hp) hIH.2.1
        · exact hIH.2.2.1 q hq
      · rcases hIH.2.2.2 with heq | hmem
        · exact Or.inl heq
        · exact Or.inr ⟨List.mem_cons_of_mem p hmem.1, hmem.2⟩

/-- The outer fold of `WFATree::trim` over the node indices. -/
theorem trimNodeStep_fold (t : WFATree) (aligner : Aligner) :
    ∀ (ns : List Nat) (st : WFAPoint × Nat × Int),
      st.2.2 = st.1.alignmentScore aligner →
      ((ns.foldl (trimNodeStep t aligner) st).2.2 =
          (ns.foldl (trimNodeStep t aligner) st).1.alignmentScore aligner ∧
        st.2.2 ≤ (ns.foldl (trimNodeStep t aligner) st).2.2 ∧
        (∀ n ∈ ns, ∀ p ∈ (t.getNode n).wavefront WFType.matches,
          p.alignmentScore aligner ≤ (ns.foldl (trimNodeStep t aligner) st).2.2) ∧
        (ns.foldl (trimNodeStep t aligner) st = st ∨
          ∃ n ∈ ns, (ns.foldl (trimNodeStep t aligner) st).1 ∈
              (t.getNode n).wavefront WFType.matches ∧
            (ns.foldl (trimNodeStep t aligner) st).2.1 = n)) := by
  intro ns
  induction ns with
  | nil => intro st h; exact ⟨h, le_refl _, by simp, Or.inl rfl⟩
  | cons n rest ih =>
    intro st h
    simp only [List.foldl_cons]
    have hstep := trimPointStep_fold aligner n ((t.getNode n).wavefront WFType.matches) st h
    have hIH := ih (trimNodeStep t aligner st n) hstep.1
    refine ⟨hIH.1, le_trans hstep.2.1 hIH.2.1, ?_, ?_⟩
    · intro m hm p hp
      rcases List.mem_cons.mp hm with rfl | hm
      · exact le_trans (hstep.2.2.1 p hp) hIH.2.1
      · exact hIH.2.2.1 m hm p hp
    · rcases hIH.2.2.2 with heq | ⟨m, hm, hmem, hnode⟩
      · rw [heq]
        rcases hstep.2.2.2 with heq2 | hmem2
        · exact Or.inl heq2
        · exact Or.inr ⟨n, List.mem_cons_self n rest, hmem2.1, hmem2.2⟩
      · exact Or.inr ⟨m, List.mem_cons_of_mem n hm, hmem, hnode⟩

/-- `WFATree::trim` picks a recorded match-wavefront point maximizing the
four-parameter alignment score (or keeps the zero candidate when no point
scores positively). -/
theorem WFATree.trim_spec (t : WFATree) (aligner : Aligner) :
    (∀ n ∈ List.range t.size, ∀ p ∈ (t.getNode n).wavefront WFType.matches,
      p.alignmentScore aligner ≤ ((t.trim aligner).candidatePoint).alignmentScore aligner) ∧
    ((t.trim aligner).candidatePoint = ⟨0, 0, 0, 0⟩ ∨
      ∃ n ∈ List.range t.size,
        (t.trim aligner).candidatePoint ∈ (t.getNode n).wavefront WFType.matches ∧
        (t.trim aligner).candidateNode = n) := by
  have h := trimNodeStep_fold t aligner (List.range t.size)
    (⟨0, 0, 0, 0⟩, 0, 0) (by simp [WFAPoint.alignmentScore, WFAPoint.targetOffset])
  constructor
  · intro n hn p hp
    have := h.2.2.1 n hn p hp
    calc p.alignmentScore aligner
        ≤ ((List.range t.size).foldl (trimNodeStep t aligner) (⟨0, 0, 0, 0⟩, 0, 0)).2.2 := this
      _ = ((t.trim aligner).candidatePoint).alignmentScore aligner := by
          rw [h.1]; rfl
  · rcases h.2.2.2 with heq | ⟨n, hn, hmem, hnode⟩
    · left
      show ((List.range t.size).foldl (trimNodeStep t aligner) (⟨0, 0, 0, 0⟩, 0, 0)).1 = _
      rw [heq]
    · right
      exact ⟨n, hn, hmem, hnode⟩

/-- Claim C8: when the score loop of `connect` exhausts its score bound
without a full-length candidate (the post-loop tree's candidate scores
above `score_bound`): with a destination specified the result is the empty
alignment; with no destination the tree is trimmed — the candidate becomes
a recorded match-wavefront point maximizing the implied four-parameter
alignment score over all tree nodes (or stays trivial when none is
positive) — and the returned alignment is built from that candidate (empty
when it aligned nothing).  `connectCore` is the body of
`WFAExtender::connect` after input validation and masking (see claims C7
and C10); in neither case does the operation abort. -/
theorem claim_C8_score_bound_fallback (graph : GBWTGraphM) (aligner : Aligner)
    (seq : List Char) (rootState : SearchState) (from' toPos : PosT) (fuel : Nat)
    (h : (connectTree graph aligner seq rootState toPos fuel).candidatePoint.score >
         (connectTree graph aligner seq rootState toPos fuel).scoreBound) :
    (¬ no_pos toPos = true →
      connectCore graph aligner seq rootState from' toPos fuel = WFAAlignment.mkEmpty) ∧
    (no_pos toPos = true →
      (∀ n ∈ List.range (connectTree graph aligner seq rootState toPos fuel).size,
        ∀ p ∈ ((connectTree graph aligner seq rootState toPos fuel).getNode n).wavefront
            WFType.matches,
          p.alignmentScore aligner ≤
            (((connectTree graph aligner seq rootState toPos fuel).trim
                aligner).candidatePoint).alignmentScore aligner) ∧
      (((connectTree graph aligner seq rootState toPos fuel).trim aligner).candidatePoint
          = ⟨0, 0, 0, 0⟩ ∨
        ∃ n ∈ List.range (connectTree graph aligner seq rootState toPos fuel).size,
          ((connectTree graph aligner seq rootState toPos fuel).trim
              aligner).candidatePoint ∈
            ((connectTree graph aligner seq rootState toPos fuel).getNode n).wavefront
              WFType.matches ∧
          ((connectTree graph aligner seq rootState toPos fuel).trim
              aligner).candidateNode = n) ∧
      connectCore graph aligner seq rootState from' toPos fuel =
        (if ((connectTree graph aligner seq rootState toPos fuel).trim
              aligner).candidatePoint.seqOffset = 0 then
          WFAAlignment.mkEmpty
        else
          connectBuild graph aligner seq from' fuel
            ((connectTree graph aligner seq rootState toPos fuel).trim aligner) false)) := by
  constructor
  · intro hno
    simp only [connectCore, connectFinish]
    rw [if_pos ⟨h, hno⟩]
  · intro hno
    have hspec := WFATree.trim_spec (connectTree graph aligner seq rootState toPos fuel) aligner
    refine ⟨hspec.1, hspec.2, ?_⟩
    simp only [connectCore, connectFinish]
    rw [if_neg (fun hcon => hcon.2 hno)]
    simp only [if_pos h, decide_eq_false (not_not_intro h)]

/-- Claim C1 (code bug): on a one-node graph with haplotype support whose
sequence is "AAAA", connecting the read "A" from (1, +, 0) to (1, +, 1) — a
zero-penalty single-base exact match, far within the score bound (9) —
returns the empty alignment, and so does the open-ended call; the score
loop never records any wavefront point (the root's match wavefront is never
seeded), so the candidate stays at the int32 sentinel.  With the missing
initialization restored (root match wavefront seeded at score 0, diagonal
0, sequence offset 0, node offset `offset(from) + 1`), the very same loop
and backtrace produce the expected one-base match of alignment score 1. -/
theorem claim_C1_connect_never_aligns :
    c1extender.connect ['A'] ⟨1, false, 0⟩ ⟨1, false, 1⟩ 100 = WFAAlignment.mkEmpty ∧
    c1extender.connect ['A'] ⟨1, false, 0⟩ ⟨0, false, 0⟩ 100 = WFAAlignment.mkEmpty ∧
    (c1graph.getState ⟨1, false⟩).isEmpty = false ∧
    c1graph.sequenceView ⟨1, false⟩ = ['A', 'A', 'A', 'A'] ∧
    c1tree.scoreBound = 9 ∧
    c1tree.candidatePoint.score = 2147483647 ∧
    (∀ n ∈ c1tree.nodes, n.wfMatches = [] ∧ n.wfInsertions = [] ∧ n.wfDeletions = []) ∧
    c1seededConnect.edits = [(WFAEdit.matchE, 1)] ∧
    c1seededConnect.length = 1 ∧
    c1seededConnect.score = 1 := by
  decide

/-!  Lemmas about the scan loop of `trim_mismatches`, leading to the
idempotence of trimming (claim C6).  The scan is split into the trajectory
of current-interval states (`trimCurs`) and the fold of the best-interval
update over that trajectory (`trimBestFold`); a second `trim_mismatches`
call replays the segment of the first scan between the recorded best
interval's endpoints. -/

/-- The post-state of one scan step always ends at the step's run target. -/
theorem trimStepCur_snd (al : Aligner) (c : (Nat × Nat) × Int)
    (s : Nat × Nat × Bool) : (trimStepCur al c s).1.2 = s.2.1 := rfl

/-- The post-state of one scan step keeps the interval start on the extend
branch and restarts it right after the mismatch on the reset branch. -/
theorem trimStepCur_fst (al : Aligner) (c : (Nat × Nat) × Int)
    (s : Nat × Nat × Bool) :
    (trimStepCur al c s).1.1 = if c.2 ≥ al.mismatch then c.1.1 else s.1 + 1 := by
  simp only [trimStepCur]
  split
  · rfl
  · rfl

/-- The reset branch of one scan step, in closed form. -/
theorem trimStepCur_reset (al : Aligner) (c : (Nat × Nat) × Int)
    (s : Nat × Nat × Bool) (h : ¬ c.2 ≥ al.mismatch) :
    trimStepCur al c s =
      ((s.1 + 1, s.2.1), ((s.2.1 - (s.1 + 1) : Nat) : Int) * al.matchScore +
        (if s.2.2 then al.fullLengthBonus else 0)) := by
  simp only [trimStepCur, if_neg h, zero_add]

/-- The scan trajectory over an appended step list splits at the join. -/
theorem trimCurs_append (al : Aligner) :
    ∀ (xs ys : List (Nat × Nat × Bool)) (c : (Nat × Nat) × Int),
      trimCurs al c (xs ++ ys) =
        trimCurs al c xs ++ trimCurs al (xs.foldl (trimStepCur al) c) ys
  | [], ys, c => rfl
  | x :: xs, ys, c => by
    simp only [List.cons_append, trimCurs, List.foldl_cons, List.append_eq]
    rw [trimCurs_append al xs ys (trimStepCur al c x)]

/-- The right endpoints along the scan trajectory are the step targets. -/
theorem trimCurs_map_snd (al : Aligner) :
    ∀ (steps : List (Nat × Nat × Bool)) (c : (Nat × Nat) × Int),
      (trimCurs al c steps).map (fun p => p.1.2) = steps.map (fun s => s.2.1)
  | [], _ => rfl
  | s :: steps, c => by
    simp only [trimCurs, List.map_cons, trimStepCur_snd]
    rw [trimCurs_map_snd al steps (trimStepCur al c s)]

/-- Every left endpoint along the scan trajectory is either the entry left
endpoint or one past some step's mismatch position. -/
theorem trimCurs_fst_mem (al : Aligner) :
    ∀ (steps : List (Nat × Nat × Bool)) (c : (Nat × Nat) × Int),
      ∀ p ∈ trimCurs al c steps,
        p.1.1 = c.1.1 ∨ ∃ s ∈ steps, p.1.1 = s.1 + 1
  | [], _, p, hp => absurd hp (List.not_mem_nil p)
  | s :: steps, c, p, hp => by
    rcases List.mem_cons.mp hp with h | h
    · rw [h, trimStepCur_fst]
      split
      · exact Or.inl rfl
      · exact Or.inr ⟨s, List.mem_cons_self s steps, rfl⟩
    · rcases trimCurs_fst_mem al steps (trimStepCur al c s) p h with h1 | ⟨t, ht, h1⟩
      · rw [h1, trimStepCur_fst]
        split
        · exact Or.inl rfl
        · exact Or.inr ⟨s, List.mem_cons_self s steps, rfl⟩
      · exact Or.inr ⟨t, List.mem_cons_of_mem s ht, h1⟩

/-- The folded current state is the entry state or a trajectory state. -/
theorem foldl_trimStepCur_mem (al : Aligner) :
    ∀ (steps : List (Nat × Nat × Bool)) (c : (Nat × Nat) × Int),
      steps.foldl (trimStepCur al) c = c ∨
        steps.foldl (trimStepCur al) c ∈ trimCurs al c steps
  | [], c => Or.inl rfl
  | s :: steps, c => by
    simp only [List.foldl_cons, trimCurs]
    rcases foldl_trimStepCur_mem al steps (trimStepCur al c s) with h | h
    · exact Or.inr (by rw [h]; exact List.mem_cons_self _ _)
    · exact Or.inr (List.mem_cons_of_mem _ h)

/-- If every step's mismatch position is at least `a` and the last
trajectory state starts at `a`, then the entry state and every non-final
trajectory state start at `a` (no reset can have fired within the scanned
steps). -/
theorem trimCurs_fst_all_eq (al : Aligner) :
    ∀ (steps : List (Nat × Nat × Bool)) (c : (Nat × Nat) × Int)
      (mids : List ((Nat × Nat) × Int)) (lp : (Nat × Nat) × Int) (a : Nat),
      (∀ s ∈ steps, a ≤ s.1) →
      trimCurs al c steps = mids ++ [lp] →
      lp.1.1 = a →
      c.1.1 = a ∧ ∀ p ∈ mids, p.1.1 = a
  | [], _, mids, _, _, _, hdec, _ => by
    exact absurd hdec (by simp [trimCurs])
  | s :: steps, c, mids, lp, a, hge, hdec, hlp => by
    simp only [trimCurs] at hdec
    cases steps with
    | nil =>
      simp only [trimCurs] at hdec
      cases mids with
      | nil =>
        simp only [List.nil_append, List.cons.injEq] at hdec
        have hc : c.1.1 = a := by
          have hfst := trimStepCur_fst al c s
          rw [hdec.1, hlp] at hfst
          have hgs := hge s (List.mem_cons_self s [])
          rcases ite_eq_iff.mp hfst.symm with ⟨_, h⟩ | ⟨_, h⟩ <;> omega
        exact ⟨hc, by intro p hp; exact absurd hp (List.not_mem_nil p)⟩
      | cons m mids' =>
        simp only [List.cons_append, List.cons.injEq] at hdec
        exact absurd hdec.2 (by simp)
    | cons t steps' =>
      cases mids with
      | nil =>
        exfalso
        simp only [List.nil_append, List.cons.injEq] at hdec
        have : trimCurs al (trimStepCur al c s)
            (t :: steps') = [] := hdec.2
        simp [trimCurs] at this
      | cons m mids' =>
        simp only [List.cons_append, List.cons.injEq] at hdec
        obtain ⟨hm, hrest⟩ := hdec
        have ih := trimCurs_fst_all_eq al (t :: steps') (trimStepCur al c s)
          mids' lp a (fun x hx => hge x (List.mem_cons_of_mem s hx)) hrest hlp
        have hc : c.1.1 = a := by
          have hfst := trimStepCur_fst al c s
          rw [ih.1] at hfst
          have hgs := hge s (List.mem_cons_self s _)
          rcases ite_eq_iff.mp hfst.symm with ⟨_, h⟩ | ⟨_, h⟩ <;> omega
        refine ⟨hc, ?_⟩
        intro p hp
        rcases List.mem_cons.mp hp with h | h
        · rw [h, ← hm, ih.1]
        · exact ih.2 p h

/-- The scan-state fold splits into the current-state fold and the
best-update fold over the trajectory. -/
theorem foldl_trimStep_eq (al : Aligner) :
    ∀ (steps : List (Nat × Nat × Bool)) (st : TrimState),
      steps.foldl (trimStep al) st =
        ⟨(steps.foldl (trimStepCur al) (st.cur, st.curScore)).1,
         (steps.foldl (trimStepCur al) (st.cur, st.curScore)).2,
         (trimBestFold (st.best, st.bestScore)
            (trimCurs al (st.cur, st.curScore) steps)).1,
         (trimBestFold (st.best, st.bestScore)
            (trimCurs al (st.cur, st.curScore) steps)).2⟩
  | [], st => rfl
  | s :: steps, st => by
    simp only [List.foldl_cons, trimCurs, trimBestFold]
    rw [foldl_trimStep_eq al steps (trimStep al st s)]
    rfl

/-- One best-update never lowers the best score. -/
theorem trimUpdateBest_le (c b : (Nat × Nat) × Int) :
    b.2 ≤ (trimUpdateBest c b).2 := by
  simp only [trimUpdateBest]
  split
  · next h =>
    rcases h with h | h
    · exact le_of_lt h
    · exact le_of_eq h.2.1.symm
  · exact le_refl _

/-- The best-update fold never lowers the best score. -/
theorem trimBestFold_le (b : (Nat × Nat) × Int) :
    ∀ cs : List ((Nat × Nat) × Int), b.2 ≤ (trimBestFold b cs).2 := by
  intro cs
  induction cs generalizing b with
  | nil => exact le_refl _
  | cons c cs ih =>
    exact le_trans (trimUpdateBest_le c b) (ih (trimUpdateBest c b))

/-- The best-update fold returns the initial best or a considered state. -/
theorem trimBestFold_mem (b : (Nat × Nat) × Int) :
    ∀ cs : List ((Nat × Nat) × Int),
      trimBestFold b cs = b ∨ trimBestFold b cs ∈ cs := by
  intro cs
  induction cs generalizing b with
  | nil => exact Or.inl rfl
  | cons c cs ih =>
    have hrec : trimBestFold b (c :: cs) = trimBestFold (trimUpdateBest c b) cs := rfl
    have hstep : trimUpdateBest c b = c ∨ trimUpdateBest c b = b := by
      simp only [trimUpdateBest]
      split
      · exact Or.inl rfl
      · exact Or.inr rfl
    rcases ih (trimUpdateBest c b) with h | h
    · rw [hrec, h]
      rcases hstep with h2 | h2
      · exact Or.inr (by rw [h2]; exact List.mem_cons_self c cs)
      · exact Or.inl h2
    · rw [hrec]
      exact Or.inr (List.mem_cons_of_mem c h)

/-- Every considered state's score is at most the folded best score. -/
theorem trimBestFold_bound (b : (Nat × Nat) × Int) :
    ∀ cs : List ((Nat × Nat) × Int), ∀ c ∈ cs, c.2 ≤ (trimBestFold b cs).2 := by
  intro cs
  induction cs generalizing b with
  | nil => intro c hc; exact absurd hc (List.not_mem_nil c)
  | cons c0 cs ih =>
    intro c hc
    rcases List.mem_cons.mp hc with h | h
    · have h1 : c.2 ≤ (trimUpdateBest c0 b).2 := by
        rw [h]
        simp only [trimUpdateBest]
        split
        · exact le_refl _
        · next hcond =>
          rw [not_or, not_and_or, not_and_or] at hcond
          rcases hcond with ⟨h2, _⟩
          exact le_of_not_lt h2
      exact le_trans h1 (trimBestFold_le (trimUpdateBest c0 b) cs)
    · exact ih (trimUpdateBest c0 b) c h

/-- A nonpositive folded best score means no update ever fired: the fold
returns the initial best. -/
theorem trimBestFold_nonpos (b : (Nat × Nat) × Int) :
    ∀ cs : List ((Nat × Nat) × Int),
      0 ≤ b.2 → (trimBestFold b cs).2 ≤ 0 → trimBestFold b cs = b := by
  intro cs
  induction cs generalizing b with
  | nil => intro _ _; rfl
  | cons c cs ih =>
    intro hb hfold
    have hrec : trimBestFold b (c :: cs) = trimBestFold (trimUpdateBest c b) cs := rfl
    rw [hrec] at hfold
    have hstep : trimUpdateBest c b = b := by
      simp only [trimUpdateBest]
      rw [if_neg]
      intro hcond
      have hcpos : 0 < c.2 := by
        rcases hcond with h | h
        · omega
        · exact h.1
      have h1 : (trimUpdateBest c b).2 = c.2 := by
        simp only [trimUpdateBest, if_pos hcond]
      have hmono := trimBestFold_le (trimUpdateBest c b) cs
      omega
    rw [hstep] at hfold
    rw [hrec, hstep]
    exact ih b hb hfold

/-- If the final considered state beats every earlier one (strictly on
score, or on interval length at equal positive score), the fold returns the
final considered state. -/
theorem trimBestFold_last (b lp : (Nat × Nat) × Int)
    (cs : List ((Nat × Nat) × Int))
    (hle : (trimBestFold b cs).2 ≤ lp.2) (hpos : 0 < lp.2)
    (hlen : (trimBestFold b cs).2 = lp.2 →
      interval_length (trimBestFold b cs).1 < interval_length lp.1) :
    trimBestFold b (cs ++ [lp]) = lp := by
  have hsplit : trimBestFold b (cs ++ [lp]) =
      trimUpdateBest lp (trimBestFold b cs) := by
    rw [trimBestFold, List.foldl_append]
    rfl
  rw [hsplit, trimUpdateBest]
  rcases lt_or_eq_of_le hle with h | h
  · exact if_pos (Or.inl h)
  · exact if_pos (Or.inr ⟨hpos, h.symm, hlen h⟩)

/-- With no right full-length bonus, the annotated steps coincide with a
segment whose final run target is the read-interval end. -/
theorem trimSteps_eq_seg :
    ∀ (l : List Nat) (t : Nat), trimSteps t false l = trimStepsSeg t l
  | [], _ => rfl
  | [_], _ => rfl
  | m :: m' :: rest, t => by
    simp only [trimSteps, trimStepsSeg]
    rw [trimSteps_eq_seg (m' :: rest) t]

/-- The annotated steps of a split mismatch list are the segment steps of
the left part (running into the right part's first mismatch) followed by
the steps of the right part. -/
theorem trimSteps_append :
    ∀ (xs : List Nat) (y : Nat) (ys : List Nat) (t : Nat) (rfb : Bool),
      trimSteps t rfb (xs ++ y :: ys) =
        trimStepsSeg y xs ++ trimSteps t rfb (y :: ys)
  | [], _, _, _, _ => rfl
  | [x], y, ys, t, rfb => rfl
  | x :: x' :: xs, y, ys, t, rfb => by
    simp only [List.cons_append, trimSteps, trimStepsSeg, List.append_eq]
    rw [← List.cons_append, trimSteps_append (x' :: xs) y ys t rfb]

/-- Segment steps of a split mismatch list, analogously. -/
theorem trimStepsSeg_append :
    ∀ (xs : List Nat) (y : Nat) (ys : List Nat) (t : Nat),
      trimStepsSeg t (xs ++ y :: ys) =
        trimStepsSeg y xs ++ trimStepsSeg t (y :: ys)
  | [], _, _, _ => rfl
  | [x], y, ys, t => rfl
  | x :: x' :: xs, y, ys, t => by
    simp only [List.cons_append, trimStepsSeg, List.append_eq]
    rw [← List.cons_append, trimStepsSeg_append (x' :: xs) y ys t]

/-- The run targets of the annotated steps are the later mismatch positions
followed by the final target. -/
theorem trimSteps_map_snd :
    ∀ (l : List Nat) (m t : Nat) (rfb : Bool),
      (trimSteps t rfb (m :: l)).map (fun s => s.2.1) = l ++ [t]
  | [], _, _, _ => rfl
  | m' :: l, m, t, rfb => by
    simp only [trimSteps, List.map_cons]
    rw [trimSteps_map_snd l m' t rfb]
    rfl

/-- Each annotated step's mismatch position comes from the mismatch list. -/
theorem trimSteps_elem_mem :
    ∀ (l : List Nat) (t : Nat) (rfb : Bool) (s : Nat × Nat × Bool),
      s ∈ trimSteps t rfb l → s.1 ∈ l
  | [], _, _, s, hs => absurd hs (List.not_mem_nil s)
  | [m], t, rfb, s, hs => by
    simp only [trimSteps, List.mem_singleton] at hs
    rw [hs]
    exact List.mem_singleton_self m
  | m :: m' :: rest, t, rfb, s, hs => by
    simp only [trimSteps, List.mem_cons] at hs
    rcases hs with h | h
    · rw [h]
      exact List.mem_cons_self m (m' :: rest)
    · exact List.mem_cons_of_mem m (trimSteps_elem_mem (m' :: rest) t rfb s h)

/-- Each segment step's mismatch position comes from the mismatch list. -/
theorem trimStepsSeg_elem_mem :
    ∀ (l : List Nat) (t : Nat) (s : Nat × Nat × Bool),
      s ∈ trimStepsSeg t l → s.1 ∈ l
  | [], _, s, hs => absurd hs (List.not_mem_nil s)
  | [m], t, s, hs => by
    simp only [trimStepsSeg, List.mem_singleton] at hs
    rw [hs]
    exact List.mem_singleton_self m
  | m :: m' :: rest, t, s, hs => by
    simp only [trimStepsSeg, List.mem_cons] at hs
    rcases hs with h | h
    · rw [h]
      exact List.mem_cons_self m (m' :: rest)
    · exact List.mem_cons_of_mem m (trimStepsSeg_elem_mem (m' :: rest) t s h)

/-- Each segment step's run target is a mismatch position of the list or
the segment's final target. -/
theorem trimStepsSeg_target_mem :
    ∀ (l : List Nat) (t : Nat) (s : Nat × Nat × Bool),
      s ∈ trimStepsSeg t l → s.2.1 ∈ l ∨ s.2.1 = t
  | [], _, s, hs => absurd hs (List.not_mem_nil s)
  | [m], t, s, hs => by
    simp only [trimStepsSeg, List.mem_singleton] at hs
    rw [hs]
    exact Or.inr rfl
  | m :: m' :: rest, t, s, hs => by
    simp only [trimStepsSeg, List.mem_cons] at hs
    rcases hs with h | h
    · rw [h]
      exact Or.inl (List.mem_cons_of_mem m (List.mem_cons_self m' rest))
    · rcases trimStepsSeg_target_mem (m' :: rest) t s h with h1 | h1
      · exact Or.inl (List.mem_cons_of_mem m h1)
      · exact Or.inr h1

/-- In a strictly sorted list, everything surviving `dropWhile (· < a)` is
at least `a`. -/
theorem sorted_dropWhile_ge (a : Nat) :
    ∀ l : List Nat, l.Pairwise (· < ·) →
      ∀ x ∈ l.dropWhile (fun m => m < a), a ≤ x
  | [], _, x, hx => absurd hx (List.not_mem_nil x)
  | y :: ys, hsort, x, hx => by
    rw [List.pairwise_cons] at hsort
    rw [List.dropWhile_cons] at hx
    by_cases hy : y < a
    · rw [if_pos (by simpa using hy)] at hx
      exact sorted_dropWhile_ge a ys hsort.2 x hx
    · rw [if_neg (by simpa using hy)] at hx
      rcases List.mem_cons.mp hx with h | h
      · omega
      · have := hsort.1 x h
        omega

/-- An element at least `a` survives `dropWhile (· < a)`. -/
theorem mem_dropWhile_of_ge (a : Nat) :
    ∀ l : List Nat, ∀ x ∈ l, a ≤ x → x ∈ l.dropWhile (fun m => m < a)
  | [], x, hx, _ => absurd hx (List.not_mem_nil x)
  | y :: ys, x, hx, hax => by
    rw [List.dropWhile_cons]
    by_cases hy : y < a
    · rw [if_pos (by simpa using hy)]
      rcases List.mem_cons.mp hx with h | h
      · omega
      · exact mem_dropWhile_of_ge a ys x h hax
    · rw [if_neg (by simpa using hy)]
      exact hx

/-- If every element satisfies the predicate, `dropWhile` drops them all. -/
theorem dropWhile_eq_nil_of_all (p : α → Bool) :
    ∀ l : List α, (∀ x ∈ l, p x = true) → l.dropWhile p = []
  | [], _ => rfl
  | y :: ys, hall => by
    rw [List.dropWhile_cons, if_pos (hall y (List.mem_cons_self y ys))]
    exact dropWhile_eq_nil_of_all p ys fun x hx => hall x (List.mem_cons_of_mem y hx)

/-- Dropping as many elements as `takeWhile` keeps is `dropWhile`. -/
theorem drop_length_takeWhile (p : α → Bool) :
    ∀ l : List α, l.drop (l.takeWhile p).length = l.dropWhile p
  | [] => rfl
  | y :: ys => by
    rw [List.takeWhile_cons, List.dropWhile_cons]
    by_cases hy : p y = true
    · rw [if_pos hy, if_pos hy, List.length_cons, List.drop_succ_cons]
      exact drop_length_takeWhile p ys
    · rw [if_neg hy, if_neg hy, List.length_nil, List.drop_zero]

/-- The mismatch window kept by `trim_mismatches` — computed in the source
with `take_while` counts and `in_place_subvector` — is the slice of the
mismatch list between the two `takeWhile` boundaries. -/
theorem in_place_subvector_window (p q : α → Bool) (l : List α) :
    in_place_subvector l (l.takeWhile p).length
      ((l.takeWhile p).length +
        ((l.drop (l.takeWhile p).length).takeWhile q).length) =
      (l.dropWhile p).takeWhile q := by
  rw [drop_length_takeWhile]
  rcases hM : (l.dropWhile p).takeWhile q with _ | ⟨m, M⟩
  · rw [in_place_subvector, if_pos]
    left
    simp [hM]
  · rw [in_place_subvector, if_neg]
    · have hsub : ∀ A B C : List α,
          ((A ++ B ++ C).take (A.length + B.length)).drop A.length = B := by
        intro A B C
        rw [← List.length_append, List.take_left, List.drop_left]
      have hl : l = l.takeWhile p ++ (l.dropWhile p).takeWhile q ++
          (l.dropWhile p).dropWhile q := by
        rw [List.append_assoc, List.takeWhile_append_dropWhile,
          List.takeWhile_append_dropWhile]
      have hx := hsub (l.takeWhile p) ((l.dropWhile p).takeWhile q)
        ((l.dropWhile p).dropWhile q)
      rw [← hl] at hx
      rw [hM] at hx
      exact hx
    · rw [not_or]
      constructor
      · simp [hM]
      · have h2 : (l.takeWhile p).length + (l.dropWhile p).length = l.length := by
          rw [← List.length_append, List.takeWhile_append_dropWhile]
        have h3 : ((l.dropWhile p).takeWhile q).length ≤ (l.dropWhile p).length :=
          List.Sublist.length_le (List.takeWhile_sublist q)
        rw [hM] at h3
        omega

/-- The replay property of the scan loop of `trim_mismatches`: if the first
scan over a mismatch list `m0 :: ms'` (split as `P ++ (m1 :: M1') ++ S`
around the recorded best interval `[a, b)`, with `P` before `a`, the
`m1 :: M1'` window inside `[a, b)` and `S` at or past `b`) records best
interval `(a, b)` with best score `sb`, then the scan that `trim_mismatches`
would run on the trimmed extension — over the window `m1 :: M1'` with read
interval end `b` and the adjusted full-length flags — records the same best
interval `(a, b)`, so the second call reports no trimming. -/
theorem trimScan_retrim (al : Aligner)
    (hmatch : 1 ≤ al.matchScore) (hbonus : 0 ≤ al.fullLengthBonus)
    (ri1 ri2 : Nat) (lf rf : Bool)
    (P : List Nat) (m1 : Nat) (M1' : List Nat) (S : List Nat)
    (m0 : Nat) (ms' : List Nat)
    (hms : m0 :: ms' = P ++ (m1 :: M1') ++ S)
    (hsorted : (m0 :: ms').Pairwise (· < ·))
    (hlo : ∀ m ∈ m0 :: ms', ri1 ≤ m)
    (hhi : ∀ m ∈ m0 :: ms', m < ri2)
    (a b : Nat) (s0 sb s2 : Int)
    (hs0 : s0 = ((m0 - ri1 : Nat) : Int) * al.matchScore +
      (if lf then al.fullLengthBonus else 0))
    (hs2 : s2 = ((m1 - a : Nat) : Int) * al.matchScore +
      (if (if a > ri1 then false else lf) then al.fullLengthBonus else 0))
    (hPlt : ∀ x ∈ P, x < a)
    (hMge : ∀ x ∈ m1 :: M1', a ≤ x)
    (hMlt : ∀ x ∈ m1 :: M1', x < b)
    (hSge : ∀ x ∈ S, b ≤ x)
    (hbest : (trimScan al ri2 rf (m0 :: ms')
        ⟨(ri1, m0), s0, (ri1, m0), s0⟩).best = (a, b))
    (hbsc : (trimScan al ri2 rf (m0 :: ms')
        ⟨(ri1, m0), s0, (ri1, m0), s0⟩).bestScore = sb) :
    (trimScan al b (if b < ri2 then false else rf) (m1 :: M1')
        ⟨(a, m1), s2, (a, m1), s2⟩).best = (a, b) := by
  have ham1 : a ≤ m1 := hMge m1 (List.mem_cons_self _ _)
  have hm1b : m1 < b := hMlt m1 (List.mem_cons_self _ _)
  set rf2 := (if b < ri2 then false else rf) with hrf2def
  set posts1 := trimCurs al ((ri1, m0), s0)
    (trimSteps ri2 rf (m0 :: ms')) with hposts1def
  -- split the first scan into trajectory and best fold
  have hsplit := foldl_trimStep_eq al (trimSteps ri2 rf (m0 :: ms'))
    ⟨(ri1, m0), s0, (ri1, m0), s0⟩
  have hbb : ((a, b), sb) = trimBestFold ((ri1, m0), s0) posts1 := by
    have h1 := hbest
    have h2 := hbsc
    rw [trimScan, hsplit] at h1 h2
    exact (Prod.ext_iff.mpr ⟨h1, h2⟩).symm
  have hs0nn : (0 : Int) ≤ s0 := by
    rw [hs0]
    have h1 : (0 : Int) ≤ ((m0 - ri1 : Nat) : Int) := Int.natCast_nonneg _
    have h2 : (0 : Int) ≤ al.matchScore := le_trans zero_le_one hmatch
    have h3 : (0 : Int) ≤ (if lf then al.fullLengthBonus else 0) := by
      split
      · exact hbonus
      · exact le_refl 0
    exact add_nonneg (mul_nonneg h1 h2) h3
  -- the fold cannot return the initial best
  have hfoldne : trimBestFold ((ri1, m0), s0) posts1 ≠ ((ri1, m0), s0) := by
    intro hcontra
    rw [← hbb] at hcontra
    have ha : a = ri1 := congrArg (fun p => p.1.1) hcontra
    have hbv : b = m0 := congrArg (fun p => p.1.2) hcontra
    have hPnil : P = [] := by
      cases hPc : P with
      | nil => rfl
      | cons p0 P' =>
        exfalso
        have h1 := hPlt p0 (by rw [hPc]; exact List.mem_cons_self _ _)
        have h2 : p0 ∈ m0 :: ms' := by
          rw [hms]
          exact List.mem_append_left _ (List.mem_append_left _
            (by rw [hPc]; exact List.mem_cons_self _ _))
        have := hlo p0 h2
        omega
    have hm0m1 : m0 = m1 := by
      have h := hms
      rw [hPnil, List.nil_append, List.cons_append] at h
      simpa using congrArg List.head? h
    have := hMlt m1 (List.mem_cons_self _ _)
    omega
  have hmem_pair : ((a, b), sb) ∈ posts1 := by
    rcases trimBestFold_mem ((ri1, m0), s0) posts1 with h | h
    · exact absurd h hfoldne
    · rw [hbb]
      exact h
  have hple : ∀ c ∈ posts1, c.2 ≤ sb := by
    intro c hc
    have h := trimBestFold_bound ((ri1, m0), s0) posts1 c hc
    rw [← hbb] at h
    exact h
  have hsble : s0 ≤ sb := by
    have h := trimBestFold_le ((ri1, m0), s0) posts1
    rw [← hbb] at h
    exact h
  have hsbpos : (0 : Int) < sb := by
    rcases lt_or_eq_of_le (le_trans hs0nn hsble) with h | h
    · exact h
    · exfalso
      apply hfoldne
      apply trimBestFold_nonpos ((ri1, m0), s0) posts1 hs0nn
      rw [← hbb]
      exact le_of_eq h.symm
  -- the recorded right endpoint is a later mismatch or the interval end
  have htargets : posts1.map (fun p => p.1.2) = ms' ++ [ri2] := by
    rw [hposts1def, trimCurs_map_snd, trimSteps_map_snd]
  have hnodup : (posts1.map (fun p => p.1.2)).Nodup := by
    rw [htargets]
    have hpair : (ms' ++ [ri2]).Pairwise (· < ·) := by
      rw [List.pairwise_append]
      refine ⟨(List.pairwise_cons.mp hsorted).2, List.pairwise_singleton _ _, ?_⟩
      intro x hx y hy
      rw [List.mem_singleton] at hy
      rw [hy]
      exact hhi x (List.mem_cons_of_mem _ hx)
    exact hpair.imp (fun h => Nat.ne_of_lt h)
  have hbmem : b ∈ ms' ++ [ri2] := by
    rw [← htargets]
    exact List.mem_map_of_mem (fun p => p.1.2) hmem_pair
  have hb_or : b ∈ ms' ∨ b = ri2 := by
    rcases List.mem_append.mp hbmem with h | h
    · exact Or.inl h
    · exact Or.inr (List.mem_singleton.mp h)
  -- the steps of the first scan split around the window
  have hsteps : trimSteps ri2 rf (m0 :: ms') =
      trimStepsSeg m1 P ++ (trimSteps b rf2 (m1 :: M1') ++ trimSteps ri2 rf S) := by
    rcases hb_or with hbtail | hbri2
    · have hbms : b ∈ m0 :: ms' := List.mem_cons_of_mem _ hbtail
      have hbdec : b ∈ P ++ (m1 :: M1') ++ S := hms ▸ hbms
      have hbS : b ∈ S := by
        rcases List.mem_append.mp hbdec with h | h
        · exfalso
          rcases List.mem_append.mp h with h1 | h1
          · have := hPlt b h1
            omega
          · exact absurd (hMlt b h1) (lt_irrefl b)
        · exact h
      rcases hSc : S with _ | ⟨s1, S''⟩
      · rw [hSc] at hbS
        exact absurd hbS (List.not_mem_nil b)
      · rw [hSc] at hbS
        have hbs1 : b = s1 := by
          rcases List.mem_cons.mp hbS with h | h
          · exact h
          · exfalso
            have hS_sorted : (s1 :: S'').Pairwise (· < ·) := by
              have hsub : List.Sublist (s1 :: S'') (m0 :: ms') := by
                rw [hms, hSc]
                exact List.sublist_append_right _ _
              exact List.Pairwise.sublist hsub hsorted
            have h1 := (List.pairwise_cons.mp hS_sorted).1 b h
            have h2 := hSge s1 (by rw [hSc]; exact List.mem_cons_self _ _)
            omega
        have hblt : b < ri2 := hhi b hbms
        have hrf2false : rf2 = false := by
          rw [hrf2def]
          exact if_pos hblt
        rw [hms, hSc, List.append_assoc, List.cons_append,
          trimSteps_append P m1 (M1' ++ s1 :: S'') ri2 rf,
          ← List.cons_append, trimSteps_append (m1 :: M1') s1 S'' ri2 rf,
          ← hbs1, hrf2false, trimSteps_eq_seg]
    · have hSnil : S = [] := by
        rw [List.eq_nil_iff_forall_not_mem]
        intro x hx
        have h1 := hSge x hx
        have h2 : x ∈ m0 :: ms' := by
          rw [hms]
          exact List.mem_append_right _ hx
        have := hhi x h2
        omega
      have hrf2rf : rf2 = rf := by
        rw [hrf2def, hbri2]
        exact if_neg (lt_irrefl ri2)
      have h0 : trimSteps ri2 rf ([] : List Nat) = [] := rfl
      rw [hms, hSnil, List.append_nil, h0, List.append_nil, hrf2rf, hbri2]
      exact trimSteps_append P m1 M1' ri2 rf
  -- the trajectory decomposes accordingly
  set E := (trimStepsSeg m1 P).foldl (trimStepCur al) ((ri1, m0), s0) with hEdef
  obtain ⟨M1d, mk, hMd⟩ :=
    (List.eq_nil_or_concat (m1 :: M1')).resolve_left (List.cons_ne_nil m1 M1')
  rw [List.concat_eq_append] at hMd
  have hmkM : mk ∈ m1 :: M1' := by
    rw [hMd]
    exact List.mem_append_right _ (List.mem_singleton_self mk)
  have hsteps2 : trimSteps b rf2 (m1 :: M1') =
      trimStepsSeg mk M1d ++ [(mk, b, rf2)] := by
    rw [hMd]
    exact trimSteps_append M1d mk [] b rf2
  set Xm := (trimStepsSeg mk M1d).foldl (trimStepCur al) E with hXmdef
  set lastp := trimStepCur al Xm (mk, b, rf2) with hlastpdef
  have hposts2 : trimCurs al E (trimSteps b rf2 (m1 :: M1')) =
      trimCurs al E (trimStepsSeg mk M1d) ++ [lastp] := by
    rw [hsteps2, trimCurs_append al (trimStepsSeg mk M1d) [(mk, b, rf2)] E,
      ← hXmdef]
    rfl
  have hposts_dec : posts1 =
      trimCurs al ((ri1, m0), s0) (trimStepsSeg m1 P) ++
        (trimCurs al E (trimSteps b rf2 (m1 :: M1')) ++
          trimCurs al ((trimSteps b rf2 (m1 :: M1')).foldl (trimStepCur al) E)
            (trimSteps ri2 rf S)) := by
    rw [hposts1def, hsteps, trimCurs_append, trimCurs_append, ← hEdef]
  have hlastp_mem : lastp ∈ posts1 := by
    rw [hposts_dec]
    refine List.mem_append_right _ (List.mem_append_left _ ?_)
    rw [hposts2]
    exact List.mem_append_right _ (List.mem_singleton_self lastp)
  have hlast_eq : ((a, b), sb) = lastp := by
    have hf : (fun p => p.1.2) (((a, b), sb) : (Nat × Nat) × Int) =
        (fun p => p.1.2) lastp := by
      rw [hlastpdef]
      simp only [trimStepCur_snd]
    exact List.inj_on_of_nodup_map hnodup hmem_pair hlastp_mem hf
  have hstep2ge : ∀ s ∈ trimSteps b rf2 (m1 :: M1'), a ≤ s.1 :=
    fun s hs => hMge s.1 (trimSteps_elem_mem (m1 :: M1') b rf2 s hs)
  obtain ⟨hEfst, hmidsfst⟩ := trimCurs_fst_all_eq al
    (trimSteps b rf2 (m1 :: M1')) E (trimCurs al E (trimStepsSeg mk M1d))
    lastp a hstep2ge hposts2 (by rw [← hlast_eq])
  -- the entry state of the window segment is the second scan's start state
  have hEentry : E = ((a, m1), s2) ∧ s2 ≤ sb := by
    rcases List.eq_nil_or_concat P with hPnil | ⟨Pd, mhat, hPd⟩
    · have hEip : E = ((ri1, m0), s0) := by
        rw [hEdef, hPnil]
        rfl
      have hari1 : ri1 = a := by
        rw [hEip] at hEfst
        exact hEfst
      have hm0m1 : m0 = m1 := by
        have h := hms
        rw [hPnil, List.nil_append, List.cons_append] at h
        simpa using congrArg List.head? h
      have hs2s0 : s2 = s0 := by
        rw [hs2, hs0, ← hm0m1, hari1]
        rw [if_neg (lt_irrefl a)]
      constructor
      · rw [hEip, hs2s0, hari1, ← hm0m1]
      · rw [hs2s0]
        exact hsble
    · rw [List.concat_eq_append] at hPd
      have hsortedP : P.Pairwise (· < ·) := by
        have hsub : List.Sublist P (m0 :: ms') := by
          rw [hms]
          exact (List.sublist_append_left P (m1 :: M1')).trans
            (List.sublist_append_left _ S)
        exact List.Pairwise.sublist hsub hsorted
      have hPdlt : ∀ x ∈ Pd, x < mhat := by
        rw [hPd] at hsortedP
        intro x hx
        exact (List.pairwise_append.mp hsortedP).2.2 x hx mhat
          (List.mem_singleton_self _)
      have hmhatP : mhat ∈ P := by
        rw [hPd]
        exact List.mem_append_right _ (List.mem_singleton_self _)
      have hmhat_lt_a : mhat < a := hPlt mhat hmhatP
      have hmhat_ms : mhat ∈ m0 :: ms' := by
        rw [hms]
        exact List.mem_append_left _ (List.mem_append_left _ hmhatP)
      have hri1mhat : ri1 ≤ mhat := hlo mhat hmhat_ms
      have hsegP : trimStepsSeg m1 P =
          trimStepsSeg mhat Pd ++ [(mhat, m1, false)] := by
        rw [hPd]
        exact trimStepsSeg_append Pd mhat [] m1
      have hEstep : E = trimStepCur al
          ((trimStepsSeg mhat Pd).foldl (trimStepCur al) ((ri1, m0), s0))
          (mhat, m1, false) := by
        rw [hEdef, hsegP, List.foldl_append]
        rfl
      set X := (trimStepsSeg mhat Pd).foldl (trimStepCur al) ((ri1, m0), s0)
        with hXdef
      have hX11 : X.1.1 ≤ mhat := by
        rcases foldl_trimStepCur_mem al (trimStepsSeg mhat Pd) ((ri1, m0), s0)
          with h | h
        · rw [hXdef, h]
          exact hri1mhat
        · rcases trimCurs_fst_mem al (trimStepsSeg mhat Pd) ((ri1, m0), s0) _ h
            with h1 | ⟨s, hs, h1⟩
          · rw [hXdef, h1]
            exact hri1mhat
          · have hsPd : s.1 ∈ Pd := trimStepsSeg_elem_mem Pd mhat s hs
            have := hPdlt s.1 hsPd
            rw [hXdef, h1]
            omega
      by_cases hXb : X.2 ≥ al.mismatch
      · exfalso
        have hEX : E.1.1 = X.1.1 := by
          rw [hEstep, trimStepCur_fst, if_pos hXb]
        rw [hEfst] at hEX
        omega
      · have hEform : E = ((mhat + 1, m1),
            ((m1 - (mhat + 1) : Nat) : Int) * al.matchScore) := by
          rw [hEstep, trimStepCur_reset al X (mhat, m1, false) hXb]
          simp
        have haeq : mhat + 1 = a := by
          rw [hEform] at hEfst
          exact hEfst
        have hgt : a > ri1 := by omega
        have hs2form : s2 = ((m1 - a : Nat) : Int) * al.matchScore := by
          rw [hs2, if_pos hgt]
          simp
        constructor
        · rw [hEform, hs2form, haeq]
        · have hEmem : E ∈ posts1 := by
            rw [hposts_dec]
            refine List.mem_append_left _ ?_
            rw [hsegP, trimCurs_append al (trimStepsSeg mhat Pd)
              [(mhat, m1, false)] ((ri1, m0), s0)]
            refine List.mem_append_right _ ?_
            show E ∈ [trimStepCur al X (mhat, m1, false)]
            rw [← hEstep]
            exact List.mem_singleton_self E
          have hEle := hple E hEmem
          have hE2 : E.2 = s2 := by
            rw [hEform, hs2form, haeq]
          omega
  obtain ⟨hE, hs2le⟩ := hEentry
  -- every considered state of the second scan is dominated by the best
  have hmids_sub : ∀ p ∈ trimCurs al E (trimStepsSeg mk M1d), p ∈ posts1 := by
    intro p hp
    rw [hposts_dec]
    refine List.mem_append_right _ (List.mem_append_left _ ?_)
    rw [hposts2]
    exact List.mem_append_left _ hp
  have hpb2le : (trimBestFold E (trimCurs al E (trimStepsSeg mk M1d))).2 ≤ sb := by
    rcases trimBestFold_mem E (trimCurs al E (trimStepsSeg mk M1d)) with h | h
    · rw [h, hE]
      exact hs2le
    · exact hple _ (hmids_sub _ h)
  have hpblen : interval_length
      (trimBestFold E (trimCurs al E (trimStepsSeg mk M1d))).1 < b - a := by
    rcases trimBestFold_mem E (trimCurs al E (trimStepsSeg mk M1d)) with h | h
    · rw [h, hE]
      simp only [interval_length]
      omega
    · have hfst := hmidsfst _ h
      have hmem2 := List.mem_map_of_mem (fun p => p.1.2) h
      rw [trimCurs_map_snd] at hmem2
      rcases List.mem_map.mp hmem2 with ⟨s, hs, hsv⟩
      simp only at hsv
      have hvM : s.2.1 ∈ m1 :: M1' := by
        rcases trimStepsSeg_target_mem M1d mk s hs with hv | hv
        · rw [hMd]
          exact List.mem_append_left _ hv
        · rw [hv]
          exact hmkM
      have h1 := hMge s.2.1 hvM
      have h2 := hMlt s.2.1 hvM
      simp only [interval_length]
      omega
  have hlastp2 : lastp.2 = sb := by
    rw [← hlast_eq]
  have hlastp1 : lastp.1 = (a, b) := by
    rw [← hlast_eq]
  -- run the second scan
  rw [trimScan, foldl_trimStep_eq]
  show (trimBestFold ((a, m1), s2)
    (trimCurs al ((a, m1), s2) (trimSteps b rf2 (m1 :: M1')))).1 = (a, b)
  rw [← hE, hposts2]
  rw [trimBestFold_last E lastp (trimCurs al E (trimStepsSeg mk M1d))
    (le_of_le_of_eq hpb2le hlastp2.symm) (hlastp2 ▸ hsbpos) ?hlen]
  case hlen =>
    intro _
    rw [hlastp1]
    exact hpblen
  rw [hlastp1]

/-- `trim_mismatches` on an exact extension does nothing. -/
theorem trim_mismatches_exact (E1 : GaplessExtension) (g : CachedGBWTGraphM)
    (al : Aligner) (h : E1.mismatchPositions = []) :
    trim_mismatches E1 g al = (E1, false) := by
  simp only [trim_mismatches, h]

/-- `trim_mismatches` reports no trimming when its scan records the whole
read interval as best. -/
theorem trim_mismatches_noop (E1 : GaplessExtension) (g : CachedGBWTGraphM)
    (al : Aligner) (m1 : Nat) (M1' : List Nat)
    (hm : E1.mismatchPositions = m1 :: M1')
    (hbest : (trimScan al E1.readInterval.2 E1.rightFull (m1 :: M1')
        ⟨(E1.readInterval.1, m1),
         (interval_length (E1.readInterval.1, m1) : Int) * al.matchScore +
           (if E1.leftFull then al.fullLengthBonus else 0),
         (E1.readInterval.1, m1),
         (interval_length (E1.readInterval.1, m1) : Int) * al.matchScore +
           (if E1.leftFull then al.fullLengthBonus else 0)⟩).best
      = E1.readInterval) :
    trim_mismatches E1 g al = (E1, false) := by
  simp only [trim_mismatches, hm]
  rw [if_pos hbest]

/-- Claim C6: `trim_mismatches` is idempotent.  For a well-formed extension
(mismatch positions strictly increasing and inside the read interval) and
sane scoring (positive match score, nonnegative full-length bonus), a
second application of `trim_mismatches` to the result of a first — with any
graph — returns the first result unchanged and reports that nothing was
trimmed. -/
theorem claim_C6_trim_idempotent (e : GaplessExtension)
    (g g2 : CachedGBWTGraphM) (al : Aligner)
    (hsorted : e.mismatchPositions.Pairwise (· < ·))
    (hlo : ∀ m ∈ e.mismatchPositions, e.readInterval.1 ≤ m)
    (hhi : ∀ m ∈ e.mismatchPositions, m < e.readInterval.2)
    (hmatch : 1 ≤ al.matchScore) (hbonus : 0 ≤ al.fullLengthBonus) :
    trim_mismatches (trim_mismatches e g al).1 g2 al =
      ((trim_mismatches e g al).1, false) := by
  rcases hms : e.mismatchPositions with _ | ⟨m0, ms'⟩
  · have h1 : trim_mismatches e g al = (e, false) := trim_mismatches_exact e g al hms
    rw [h1]
    exact trim_mismatches_exact e g2 al hms
  · rw [hms] at hsorted hlo hhi
    set st := trimScan al e.readInterval.2 e.rightFull (m0 :: ms')
      ⟨(e.readInterval.1, m0),
       (interval_length (e.readInterval.1, m0) : Int) * al.matchScore +
         (if e.leftFull then al.fullLengthBonus else 0),
       (e.readInterval.1, m0),
       (interval_length (e.readInterval.1, m0) : Int) * al.matchScore +
         (if e.leftFull then al.fullLengthBonus else 0)⟩ with hstdef
    by_cases hb : st.best = e.readInterval
    · have h1 : trim_mismatches e g al = (e, false) := by
        simp only [trim_mismatches, hms]
        rw [← hstdef, if_pos hb]
      rw [h1]
      show trim_mismatches e g2 al = (e, false)
      simp only [trim_mismatches, hms]
      rw [← hstdef, if_pos hb]
    · by_cases hlen : interval_length st.best = 0
      · have h1 : trim_mismatches e g al =
            ({ e with
                path := []
                readInterval := st.best
                mismatchPositions := []
                score := 0
                leftFull := false
                rightFull := false }, true) := by
          simp only [trim_mismatches, hms]
          rw [← hstdef, if_neg hb, if_pos hlen]
        rw [h1]
        exact trim_mismatches_exact _ g2 al rfl
      · obtain ⟨R, hR, hRri, hRms, hRlf, hRrf⟩ :
            ∃ R : GaplessExtension, trim_mismatches e g al = (R, true) ∧
              R.readInterval = st.best ∧
              R.mismatchPositions = in_place_subvector (m0 :: ms')
                ((m0 :: ms').takeWhile (fun m => m < st.best.1)).length
                (((m0 :: ms').takeWhile (fun m => m < st.best.1)).length +
                  (((m0 :: ms').drop
                      ((m0 :: ms').takeWhile (fun m => m < st.best.1)).length).takeWhile
                    (fun m => m < st.best.2)).length) ∧
              R.leftFull = (if st.best.1 > e.readInterval.1 then false
                else e.leftFull) ∧
              R.rightFull = (if st.best.2 < e.readInterval.2 then false
                else e.rightFull) := by
          refine ⟨(trim_mismatches e g al).1, ?_, ?_, ?_, ?_, ?_⟩ <;>
            (simp only [trim_mismatches, hms];
             rw [← hstdef, if_neg hb, if_neg hlen];
             try rfl)
        rw [hR]
        have hwin := in_place_subvector_window (fun m => m < st.best.1)
          (fun m => m < st.best.2) (m0 :: ms')
        have hmsR : R.mismatchPositions =
            ((m0 :: ms').dropWhile (fun m => m < st.best.1)).takeWhile
              (fun m => m < st.best.2) := hRms.trans hwin
        rcases hM1c : ((m0 :: ms').dropWhile (fun m => m < st.best.1)).takeWhile
            (fun m => m < st.best.2) with _ | ⟨m1, M1'⟩
        · exact trim_mismatches_exact R g2 al (hmsR.trans hM1c)
        · apply trim_mismatches_noop R g2 al m1 M1' (hmsR.trans hM1c)
          rw [hRri, hRlf, hRrf]
          have hdwa_sorted : ((m0 :: ms').dropWhile
              (fun m => m < st.best.1)).Pairwise (· < ·) :=
            List.Pairwise.sublist (List.dropWhile_sublist _) hsorted
          have hd1 : (m0 :: ms').takeWhile (fun m => m < st.best.1) ++
              (m0 :: ms').dropWhile (fun m => m < st.best.1) = m0 :: ms' :=
            List.takeWhile_append_dropWhile _ _
          have hd2 : (m1 :: M1') ++ ((m0 :: ms').dropWhile
                (fun m => m < st.best.1)).dropWhile (fun m => m < st.best.2) =
              (m0 :: ms').dropWhile (fun m => m < st.best.1) := by
            rw [← hM1c]
            exact List.takeWhile_append_dropWhile _ _
          have hdecomp : m0 :: ms' =
              (m0 :: ms').takeWhile (fun m => m < st.best.1) ++ (m1 :: M1') ++
                ((m0 :: ms').dropWhile (fun m => m < st.best.1)).dropWhile
                  (fun m => m < st.best.2) := by
            rw [List.append_assoc, hd2, hd1]
          have hMmem : ∀ x ∈ m1 :: M1',
              x ∈ (m0 :: ms').dropWhile (fun m => m < st.best.1) := by
            intro x hx
            rw [← hd2]
            exact List.mem_append_left _ hx
          exact trimScan_retrim al hmatch hbonus e.readInterval.1 e.readInterval.2
            e.leftFull e.rightFull
            ((m0 :: ms').takeWhile (fun m => m < st.best.1)) m1 M1'
            (((m0 :: ms').dropWhile (fun m => m < st.best.1)).dropWhile
              (fun m => m < st.best.2)) m0 ms'
            hdecomp hsorted hlo hhi st.best.1 st.best.2
            ((interval_length (e.readInterval.1, m0) : Int) * al.matchScore +
              (if e.leftFull then al.fullLengthBonus else 0))
            st.bestScore
            ((interval_length (st.best.1, m1) : Int) * al.matchScore +
              (if (if st.best.1 > e.readInterval.1 then false else e.leftFull) then
                al.fullLengthBonus else 0))
            rfl rfl
            (fun x hx => by simpa using List.mem_takeWhile_imp hx)
            (fun x hx => sorted_dropWhile_ge st.best.1 (m0 :: ms') hsorted x
              (hMmem x hx))
            (fun x hx => by
              have hx2 : x ∈ ((m0 :: ms').dropWhile
                  (fun m => m < st.best.1)).takeWhile (fun m => m < st.best.2) := by
                rw [hM1c]
                exact hx
              simpa using List.mem_takeWhile_imp hx2)
            (sorted_dropWhile_ge st.best.2 _ hdwa_sorted)
            (by rw [← hstdef])
            (by rw [← hstdef])

/-- Witness for claim C6 at a concrete input: the extension `c6ext` is
well-formed, the first `trim_mismatches` call under `c6al` really trims it
(to read interval [2, 10), keeping the mismatch at 5), and the second call
returns that result unchanged, reporting no trimming. -/
theorem claim_C6_trim_idempotent_witness :
    c6ext.mismatchPositions.Pairwise (· < ·) ∧
    (∀ m ∈ c6ext.mismatchPositions, c6ext.readInterval.1 ≤ m) ∧
    (∀ m ∈ c6ext.mismatchPositions, m < c6ext.readInterval.2) ∧
    1 ≤ c6al.matchScore ∧ 0 ≤ c6al.fullLengthBonus ∧
    (trim_mismatches c6ext c6graph c6al).2 = true ∧
    (trim_mismatches c6ext c6graph c6al).1.readInterval = (2, 10) ∧
    (trim_mismatches c6ext c6graph c6al).1.mismatchPositions = [5] ∧
    trim_mismatches (trim_mismatches c6ext c6graph c6al).1 c6graph c6al =
      ((trim_mismatches c6ext c6graph c6al).1, false) :=
  ⟨by decide, by decide, by decide, by decide, by decide, by decide, by decide,
    by decide,
    claim_C6_trim_idempotent c6ext c6graph c6graph c6al (by decide) (by decide)
      (by decide) (by decide) (by decide)⟩

/-- Witness for claim C8 at the concrete C1 instance: the post-loop
candidate score (the int32 sentinel) exceeds the score bound 9, and with
the destination (1, +, 1) specified, `connectCore` returns the empty
alignment. -/
theorem claim_C8_score_bound_fallback_witness :
    (connectTree c1graph c1aligner (readMask ['A']) (c1graph.getState ⟨1, false⟩)
        ⟨1, false, 1⟩ 100).candidatePoint.score >
      (connectTree c1graph c1aligner (readMask ['A']) (c1graph.getState ⟨1, false⟩)
        ⟨1, false, 1⟩ 100).scoreBound ∧
    connectCore c1graph c1aligner (readMask ['A']) (c1graph.getState ⟨1, false⟩)
      ⟨1, false, 0⟩ ⟨1, false, 1⟩ 100 = WFAAlignment.mkEmpty :=
  ⟨by decide,
    (claim_C8_score_bound_fallback c1graph c1aligner (readMask ['A'])
        (c1graph.getState ⟨1, false⟩) ⟨1, false, 0⟩ ⟨1, false, 1⟩ 100 (by decide)).1
      (by decide)⟩

end VG
